import Mathlib

/-!
Verification development for the GenLeadCRM repository.

The repository's core is a lead-generation ingestion pipeline (search,
cache, crawler, extractor, deduplicator, orchestrator).  The pipeline's
implementation files (`lead_engine/cache.py`, `places.py`, `crawler.py`,
`extractor.py`, `dedupe.py`) are not present in the source tree that was
provided; only their README (`src/google-maps-services-python/README.md`)
and the specification describe them.  Components that are only described,
not implemented, are therefore modelled from the spec; each such
definition carries a doc comment starting with `Modelled from the spec:`.
The Remotion promotional-video components (`FacebookAd.jsx`,
`RemotionRoot`) are present in the source and are embedded directly.
-/

/-! ## Basic list utilities (association lists, indexed access) -/

/-- Nth element of a list as an `Option`. -/
def nth {α : Type} : List α → Nat → Option α
  | [], _ => none
  | a :: _, 0 => some a
  | _ :: l, n + 1 => nth l n

/-- Replace the element at an index, leaving the list unchanged when the
index is out of range. -/
def setN {α : Type} : List α → Nat → α → List α
  | [], _, _ => []
  | _ :: l, 0, b => b :: l
  | a :: l, n + 1, b => a :: setN l n b

/-- Lookup in an association list, first binding wins. -/
def alLookup {κ α : Type} [DecidableEq κ] (k : κ) : List (κ × α) → Option α
  | [] => none
  | (k', v) :: m => if k' = k then some v else alLookup k m

/-- Insert a binding only when the key is absent: the first recorded
binding for a key is never overwritten (first-seen wins). -/
def alInsert {κ α : Type} [DecidableEq κ] (k : κ) (v : α) (m : List (κ × α)) :
    List (κ × α) :=
  match alLookup k m with
  | some _ => m
  | none => (k, v) :: m

theorem nth_lt_length {α : Type} : ∀ (l : List α) (i : Nat) (a : α),
    nth l i = some a → i < l.length
  | [], i, a, h => by simp [nth] at h
  | _ :: l, 0, _, _ => Nat.succ_pos _
  | _ :: l, i + 1, a, h => Nat.succ_lt_succ (nth_lt_length l i a h)

theorem nth_of_lt {α : Type} : ∀ (l : List α) (i : Nat), i < l.length →
    ∃ a, nth l i = some a
  | [], i, h => absurd h (by simp)
  | a :: l, 0, _ => ⟨a, rfl⟩
  | _ :: l, i + 1, h => nth_of_lt l i (Nat.lt_of_succ_lt_succ h)

theorem nth_setN_self {α : Type} : ∀ (l : List α) (i : Nat) (a b : α),
    nth l i = some a → nth (setN l i b) i = some b
  | [], i, a, b, h => by simp [nth] at h
  | _ :: l, 0, _, _, _ => rfl
  | _ :: l, i + 1, a, b, h => nth_setN_self l i a b h

theorem nth_setN_ne {α : Type} : ∀ (l : List α) (i j : Nat) (b : α), i ≠ j →
    nth (setN l i b) j = nth l j
  | [], _, _, _, _ => by simp [setN]
  | _ :: l, 0, 0, _, h => absurd rfl h
  | _ :: l, 0, j + 1, _, _ => rfl
  | _ :: l, i + 1, 0, _, _ => rfl
  | _ :: l, i + 1, j + 1, b, h =>
    nth_setN_ne l i j b (fun hij => h (congrArg Nat.succ hij))

theorem setN_same {α : Type} : ∀ (l : List α) (i : Nat) (a : α),
    nth l i = some a → setN l i a = l
  | [], i, a, h => by simp [nth] at h
  | _ :: l, 0, _, h => by simp [nth] at h; simp [setN, h]
  | x :: l, i + 1, a, h => by simp [setN]; exact setN_same l i a h

theorem length_setN {α : Type} : ∀ (l : List α) (i : Nat) (a : α),
    (setN l i a).length = l.length
  | [], _, _ => rfl
  | _ :: l, 0, _ => rfl
  | _ :: l, i + 1, a => by simp [setN, length_setN l i a]

theorem nth_append_left {α : Type} : ∀ (l l' : List α) (i : Nat) (a : α),
    nth l i = some a → nth (l ++ l') i = some a
  | [], _, i, a, h => by simp [nth] at h
  | _ :: l, l', 0, a, h => h
  | _ :: l, l', i + 1, a, h => nth_append_left l l' i a h

theorem nth_append_length {α : Type} : ∀ (l : List α) (a : α),
    nth (l ++ [a]) l.length = some a
  | [], _ => rfl
  | _ :: l, a => nth_append_length l a

theorem alLookup_alInsert_preserve {κ α : Type} [DecidableEq κ]
    (k k' : κ) (v v' : α) (m : List (κ × α)) (h : alLookup k' m = some v') :
    alLookup k' (alInsert k v m) = some v' := by
  unfold alInsert
  cases hm : alLookup k m with
  | some w => exact h
  | none =>
    simp only [alLookup]
    by_cases hk : k = k'
    · subst hk; rw [hm] at h; exact absurd h (by simp)
    · simp [hk, h]

theorem alLookup_alInsert_isSome {κ α : Type} [DecidableEq κ]
    (k : κ) (v : α) (m : List (κ × α)) :
    (alLookup k (alInsert k v m)).isSome := by
  unfold alInsert
  cases hm : alLookup k m with
  | some w => simp [hm]
  | none => simp [alLookup]

theorem alInsert_of_isSome {κ α : Type} [DecidableEq κ]
    (k : κ) (v : α) (m : List (κ × α)) (h : (alLookup k m).isSome) :
    alInsert k v m = m := by
  unfold alInsert
  cases hm : alLookup k m with
  | some w => rfl
  | none => rw [hm] at h; simp at h

theorem alLookup_alInsert_absent {κ α : Type} [DecidableEq κ]
    (k : κ) (v : α) (m : List (κ × α)) (h : alLookup k m = none) :
    alLookup k (alInsert k v m) = some v := by
  unfold alInsert
  rw [h]
  simp [alLookup]

theorem alLookup_mem {κ α : Type} [DecidableEq κ] :
    ∀ (m : List (κ × α)) (k : κ) (v : α), alLookup k m = some v → (k, v) ∈ m
  | [], k, v, h => by simp [alLookup] at h
  | (k', w) :: m, k, v, h => by
    simp only [alLookup] at h
    by_cases hk : k' = k
    · subst hk
      simp at h
      subst h
      exact List.mem_cons_self _ _
    · simp [hk] at h
      exact List.mem_cons_of_mem _ (alLookup_mem m k v h)

/-! ## Extractor: email quality classification (claim C4)

Modelled from the spec: `lead_engine/extractor.py` is absent from the
provided source.  The spec (section 4.5) says an email is `generic` if its
local part matches a closed set of role-account prefixes (`info`,
`contact`, `admin`, `support`, `sales`, `hello`, `office`, `no-reply`)
possibly followed by digits, case-insensitively; every other
syntactically valid address is `personal`. -/

/-- Email quality flag emitted by the Extractor. -/
inductive Quality : Type
  | personal
  | generic
deriving DecidableEq, BEq, Repr

/-- Modelled from the spec: the closed set of role-account names of the
Extractor (spec section 4.5), as lower-case character lists. -/
def roleNames : List (List Char) :=
  ["info".toList, "contact".toList, "admin".toList, "support".toList,
   "sales".toList, "hello".toList, "office".toList, "no-reply".toList]

/-- Does the local part `l` consist of the role name `p` (compared
case-insensitively) followed only by digits (possibly none)? -/
def matchesRole : List Char → List Char → Bool
  | [], rest => rest.all fun c => c.isDigit
  | _ :: _, [] => false
  | a :: ps, c :: cs => a == c.toLower && matchesRole ps cs

/-- Modelled from the spec: quality classification of an email local
part; `generic` when some role name matches, `personal` otherwise
(ties default to `generic` because any role match wins). -/
def classifyLocal (l : List Char) : Quality :=
  if roleNames.any (fun p => matchesRole p l) then Quality.generic
  else Quality.personal

/-- Local part of an email address: the characters before the `@`. -/
def localOf (e : String) : List Char :=
  e.toList.takeWhile fun c => c ≠ '@'

/-- Quality of a full email address, a pure function of its local part. -/
def qualityOf (e : String) : Quality := classifyLocal (localOf e)

/-- C4: an email local part that is exactly `info`, `support`, `sales` or
`admin` (case-insensitive, optionally followed by digits) is classified
`generic`; a local part matching none of the closed role-name set is
classified `personal`. -/
theorem email_classification (l : List Char) :
    ((matchesRole "info".toList l = true ∨ matchesRole "support".toList l = true ∨
      matchesRole "sales".toList l = true ∨ matchesRole "admin".toList l = true) →
      classifyLocal l = Quality.generic) ∧
    ((∀ p ∈ roleNames, matchesRole p l = false) →
      classifyLocal l = Quality.personal) := by
  constructor
  · intro h
    unfold classifyLocal
    have hany : roleNames.any (fun p => matchesRole p l) = true := by
      rcases h with h | h | h | h
      · exact List.any_eq_true.mpr ⟨"info".toList, by simp [roleNames], h⟩
      · exact List.any_eq_true.mpr ⟨"support".toList, by simp [roleNames], h⟩
      · exact List.any_eq_true.mpr ⟨"sales".toList, by simp [roleNames], h⟩
      · exact List.any_eq_true.mpr ⟨"admin".toList, by simp [roleNames], h⟩
    simp [hany]
  · intro h
    unfold classifyLocal
    have hany : roleNames.any (fun p => matchesRole p l) = false := by
      rw [List.any_eq_false]
      intro p hp
      simp [h p hp]
    simp [hany]

/-- Witness for C4 at concrete inputs: `INFO123` is generic, `robert` is
personal. -/
theorem email_classification_witness :
    classifyLocal "INFO123".toList = Quality.generic ∧
    classifyLocal "robert".toList = Quality.personal :=
  ⟨(email_classification "INFO123".toList).1 (Or.inl (by decide)),
   (email_classification "robert".toList).2 (by decide)⟩

/-! ## Remotion promotional video: FacebookAd scene layout (claim C10)

Embedded from `src/campaign-backend/promo-video/src/FacebookAd.jsx` and
the `RemotionRoot` composition registration in `src/unnamed/part_000`. -/

/-- One Remotion `Sequence`: start frame and duration in frames. -/
structure Scene where
  from_ : Nat
  durationInFrames : Nat
deriving DecidableEq, Repr

/-- The four scene Sequences of the `FacebookAd` component, exactly as
written in `FacebookAd.jsx`: LeadGeneration, AICalling,
PerformanceDashboard, TheSystem. -/
def facebookAdScenes : List Scene :=
  [⟨0, 150⟩, ⟨150, 150⟩, ⟨300, 240⟩, ⟨540, 210⟩]

/-- One Remotion `Composition` registration: id and `durationInFrames`,
from `RemotionRoot`. -/
structure Comp where
  id : String
  durationInFrames : Nat
deriving DecidableEq, Repr

/-- The compositions registered by `RemotionRoot`. -/
def remotionComps : List Comp :=
  [⟨"SunbeamPromo", 750⟩, ⟨"FacebookAd-16x9", 750⟩, ⟨"FacebookAd-Square", 750⟩]

/-- Number of FacebookAd scenes whose frame interval contains frame `f`. -/
def scenesCovering (f : Nat) : Nat :=
  (facebookAdScenes.filter fun s =>
    decide (s.from_ ≤ f ∧ f < s.from_ + s.durationInFrames)).length

/-- C10: the FacebookAd scenes start at frames 0, 150, 300, 540 with
durations 150, 150, 240, 210, every frame below 750 lies in exactly one
scene, the last scene ends exactly at frame 750, and 750 is the duration
registered for the FacebookAd-16x9 and FacebookAd-Square compositions. -/
theorem facebook_ad_scene_coverage (f : Nat) (h : f < 750) :
    scenesCovering f = 1 ∧
    facebookAdScenes = [⟨0, 150⟩, ⟨150, 150⟩, ⟨300, 240⟩, ⟨540, 210⟩] ∧
    (∀ s ∈ facebookAdScenes, s.from_ + s.durationInFrames ≤ 750) ∧
    nth remotionComps 1 = some ⟨"FacebookAd-16x9", 750⟩ ∧
    nth remotionComps 2 = some ⟨"FacebookAd-Square", 750⟩ := by
  refine ⟨?_, rfl, by decide, rfl, rfl⟩
  unfold scenesCovering facebookAdScenes
  simp only [List.filter_cons, List.filter_nil, decide_eq_true_eq]
  split <;> split <;> split <;> split <;> simp_all <;> omega

/-- Witness for C10 at the concrete frame 600. -/
theorem facebook_ad_scene_coverage_witness :
    scenesCovering 600 = 1 ∧
    facebookAdScenes = [⟨0, 150⟩, ⟨150, 150⟩, ⟨300, 240⟩, ⟨540, 210⟩] ∧
    (∀ s ∈ facebookAdScenes, s.from_ + s.durationInFrames ≤ 750) ∧
    nth remotionComps 1 = some ⟨"FacebookAd-16x9", 750⟩ ∧
    nth remotionComps 2 = some ⟨"FacebookAd-Square", 750⟩ :=
  facebook_ad_scene_coverage 600 (by decide)

/-! ## Deduplicator (claims C2 and C9)

Modelled from the spec: `lead_engine/dedupe.py` is absent from the
provided source.  Spec section 4.6: the Deduplicator maintains three
lookup indices (place id, normalized phone, normalized domain) into the
accumulated lead set; a candidate that hits any index is merged into the
existing lead (union of emails and types, non-empty fields win over
empty ones, first-seen wins on conflicting scalar fields) and all three
of its keys are registered against that lead; otherwise it becomes a new
lead and registers its keys. -/

/-- A candidate or accumulated lead: the three identity keys
(place id, normalized phone, normalized domain), the set-valued fields
(emails, types) and a representative scalar field (name). -/
structure Lead where
  pid : String
  name : String
  phone : Option String
  domain : Option String
  emails : List String
  types : List String
deriving DecidableEq, Repr

/-- Boolean membership for strings. -/
def memb (x : String) : List String → Bool
  | [] => false
  | y :: ys => if x = y then true else memb x ys

/-- Set union of string lists keeping first-seen order. -/
def unionL (xs ys : List String) : List String :=
  xs ++ ys.filter fun y => !(memb y xs)

/-- First non-none option wins (non-empty fields win over empty ones,
first-seen wins on conflict). -/
def orO : Option String → Option String → Option String
  | some a, _ => some a
  | none, b => b

/-- First non-empty string wins. -/
def pickName (a b : String) : String := if a = "" then b else a

/-- Merge a new candidate `c` into the existing lead `old`: union of
emails and types, non-empty fields win over empty ones, first-seen wins
on conflicting scalar fields. -/
def mergeLead (old c : Lead) : Lead :=
  { pid := old.pid
    name := pickName old.name c.name
    phone := orO old.phone c.phone
    domain := orO old.domain c.domain
    emails := unionL old.emails c.emails
    types := unionL old.types c.types }

/-- The Deduplicator accumulator: the lead set plus the three lookup
indices mapping identity keys to positions in `leads`. -/
structure DedupState where
  leads : List Lead
  byId : List (String × Nat)
  byPhone : List (String × Nat)
  byDomain : List (String × Nat)
deriving DecidableEq, Repr

/-- Empty Deduplicator accumulator. -/
def dedupInit : DedupState := ⟨[], [], [], []⟩

/-- Lookup of an optional key in an index. -/
def optLookup (idx : List (String × Nat)) : Option String → Option Nat
  | some k => alLookup k idx
  | none => none

/-- Which accumulated lead, if any, does a candidate hit?  The place-id
index is consulted first, then phone, then domain. -/
def findHit (s : DedupState) (c : Lead) : Option Nat :=
  match alLookup c.pid s.byId with
  | some i => some i
  | none =>
    match optLookup s.byPhone c.phone with
    | some i => some i
    | none => optLookup s.byDomain c.domain

/-- Register an optional key against lead index `i` (first-seen binding
is kept). -/
def regKey (idx : List (String × Nat)) (i : Nat) : Option String → List (String × Nat)
  | some k => alInsert k i idx
  | none => idx

/-- Register all three identity keys of candidate `c` against lead
index `i`. -/
def register (s : DedupState) (c : Lead) (i : Nat) : DedupState :=
  { s with
    byId := alInsert c.pid i s.byId
    byPhone := regKey s.byPhone i c.phone
    byDomain := regKey s.byDomain i c.domain }

/-- Modelled from the spec: `fold(candidate)` of the Deduplicator.  A
candidate hitting any index is merged into that lead and its keys are
registered there; otherwise it is appended as a new lead. -/
def DedupState.fold (s : DedupState) (c : Lead) : DedupState :=
  match findHit s c with
  | some i =>
    match nth s.leads i with
    | some old => register { s with leads := setN s.leads i (mergeLead old c) } c i
    | none => register { s with leads := s.leads ++ [c] } c s.leads.length
  | none => register { s with leads := s.leads ++ [c] } c s.leads.length

/-- Fold a whole candidate stream into the accumulator. -/
def foldAll (s : DedupState) (cs : List Lead) : DedupState :=
  cs.foldl DedupState.fold s

theorem memb_iff (x : String) : ∀ ys : List String, memb x ys = true ↔ x ∈ ys
  | [] => by simp [memb]
  | y :: ys => by
    simp only [memb, List.mem_cons]
    by_cases h : x = y
    · simp [h]
    · simp [h, memb_iff x ys]

theorem mem_unionL (x : String) (xs ys : List String) :
    x ∈ unionL xs ys ↔ x ∈ xs ∨ x ∈ ys := by
  unfold unionL
  simp only [List.mem_append, List.mem_filter]
  constructor
  · rintro (h | ⟨h, _⟩)
    · exact Or.inl h
    · exact Or.inr h
  · rintro (h | h)
    · exact Or.inl h
    · by_cases hx : x ∈ xs
      · exact Or.inl hx
      · refine Or.inr ⟨h, ?_⟩
        simp [(memb_iff x xs).not.mpr hx]

theorem unionL_absorb (xs ys : List String) (h : ∀ y ∈ ys, y ∈ xs) :
    unionL xs ys = xs := by
  unfold unionL
  have : ys.filter (fun y => !(memb y xs)) = [] := by
    rw [List.filter_eq_nil_iff]
    intro a ha
    simp [(memb_iff a xs).mpr (h a ha)]
  rw [this, List.append_nil]

/-- C2, counterexample: three candidates where identity keys link leads
transitively.  Candidate `cexA` (phone 1) and `cexB` (domain d) do not
share a key, but `cexC` shares its phone with `cexA` and its domain with
`cexB`.  `cexC` merges into the lead of `cexA`, filling its empty
domain, so the final output holds two leads that share the domain key
`d`, and no single lead carries the union of the emails of `cexB` and
`cexC` even though they share a key. -/
theorem dedup_shared_key_counterexample :
    (foldAll dedupInit
      [⟨"a", "A", some "1", none, [], []⟩,
       ⟨"b", "B", none, some "d", ["b@x.com"], []⟩,
       ⟨"c", "C", some "1", some "d", ["c@x.com"], []⟩]).leads.length = 2 ∧
    (foldAll dedupInit
      [⟨"a", "A", some "1", none, [], []⟩,
       ⟨"b", "B", none, some "d", ["b@x.com"], []⟩,
       ⟨"c", "C", some "1", some "d", ["c@x.com"], []⟩]).leads.map Lead.domain
      = [some "d", some "d"] ∧
    ¬ ∃ L ∈ (foldAll dedupInit
      [⟨"a", "A", some "1", none, [], []⟩,
       ⟨"b", "B", none, some "d", ["b@x.com"], []⟩,
       ⟨"c", "C", some "1", some "d", ["c@x.com"], []⟩]).leads,
      "b@x.com" ∈ L.emails ∧ "c@x.com" ∈ L.emails := by
  decide

/-- C2, amended: for a run folding exactly two candidates that share a
place id, a normalized phone or a normalized domain, the final output is
exactly one merged lead whose emails and types are the unions of the two
candidates' emails and types. -/
theorem dedup_pair_union (A B : Lead)
    (h : A.pid = B.pid ∨ (∃ p, A.phone = some p ∧ B.phone = some p) ∨
         (∃ d, A.domain = some d ∧ B.domain = some d)) :
    (foldAll dedupInit [A, B]).leads = [mergeLead A B] ∧
    (∀ e, e ∈ (mergeLead A B).emails ↔ e ∈ A.emails ∨ e ∈ B.emails) ∧
    (∀ t, t ∈ (mergeLead A B).types ↔ t ∈ A.types ∨ t ∈ B.types) := by
  have hs1 : foldAll dedupInit [A, B] =
      DedupState.fold (DedupState.fold dedupInit A) B := rfl
  have hfA : DedupState.fold dedupInit A =
      register ⟨[A], [], [], []⟩ A 0 := by
    simp [DedupState.fold, findHit, dedupInit, alLookup, optLookup]
    cases A.phone <;> cases A.domain <;> simp [optLookup, alLookup]
  refine ⟨?_, fun e => by simp [mergeLead, mem_unionL], fun t => by simp [mergeLead, mem_unionL]⟩
  rw [hs1, hfA]
  have hhit : findHit (register ⟨[A], [], [], []⟩ A 0) B = some 0 := by
    unfold register findHit
    simp only
    cases hById : alLookup B.pid (alInsert A.pid 0 []) with
    | some i =>
      have hm := alLookup_mem _ _ _ hById
      simp [alInsert, alLookup] at hm
      simp [hm.2]
    | none =>
      rcases h with hpid | ⟨p, hAp, hBp⟩ | ⟨d, hAd, hBd⟩
      · rw [hpid] at hById
        rw [alLookup_alInsert_absent B.pid 0 [] rfl] at hById
        exact absurd hById (by simp)
      · rw [hAp, hBp]
        simp only [optLookup, regKey]
        rw [alLookup_alInsert_absent p 0 [] rfl]
      · rw [hBd]
        cases hBp : B.phone with
        | none =>
          simp only [optLookup]
          rw [hAd]
          simp only [regKey]
          rw [alLookup_alInsert_absent d 0 [] rfl]
        | some q =>
          simp only [optLookup]
          cases hAp : A.phone with
          | none =>
            simp only [regKey, alLookup]
            rw [hAd]
            simp only [regKey]
            rw [alLookup_alInsert_absent d 0 [] rfl]
          | some r =>
            simp only [regKey]
            by_cases hqr : r = q
            · subst hqr
              rw [alLookup_alInsert_absent r 0 [] rfl]
            · have hnone : alLookup q (alInsert r 0 ([] : List (String × Nat))) = none := by
                simp [alInsert, alLookup, hqr]
              rw [hnone]
              rw [hAd]
              simp only [regKey]
              rw [alLookup_alInsert_absent d 0 [] rfl]
  rw [DedupState.fold]
  rw [hhit]
  simp only [register, nth]
  rfl

/-- Witness for C2's amended theorem on two concrete candidates sharing
a phone key. -/
theorem dedup_pair_union_witness :
    (foldAll dedupInit
      [⟨"a", "A", some "15551234", none, ["ann@x.com"], ["plumber"]⟩,
       ⟨"b", "B", some "15551234", some "x.com", ["info@x.com"], ["contractor"]⟩]).leads
      = [mergeLead
          ⟨"a", "A", some "15551234", none, ["ann@x.com"], ["plumber"]⟩
          ⟨"b", "B", some "15551234", some "x.com", ["info@x.com"], ["contractor"]⟩] ∧
    (∀ e, e ∈ (mergeLead
          ⟨"a", "A", some "15551234", none, ["ann@x.com"], ["plumber"]⟩
          ⟨"b", "B", some "15551234", some "x.com", ["info@x.com"], ["contractor"]⟩).emails ↔
        e ∈ ["ann@x.com"] ∨ e ∈ ["info@x.com"]) ∧
    (∀ t, t ∈ (mergeLead
          ⟨"a", "A", some "15551234", none, ["ann@x.com"], ["plumber"]⟩
          ⟨"b", "B", some "15551234", some "x.com", ["info@x.com"], ["contractor"]⟩).types ↔
        t ∈ ["plumber"] ∨ t ∈ ["contractor"]) :=
  dedup_pair_union
    ⟨"a", "A", some "15551234", none, ["ann@x.com"], ["plumber"]⟩
    ⟨"b", "B", some "15551234", some "x.com", ["info@x.com"], ["contractor"]⟩
    (Or.inr (Or.inl ⟨"15551234", rfl, rfl⟩))

/-! ### Idempotence of the Deduplicator fold (claim C9) -/

/-- Every index entry points below `n`. -/
def idxOK (n : Nat) (idx : List (String × Nat)) : Prop :=
  ∀ p ∈ idx, p.2 < n

/-- Well-formed accumulator: all three indices point into `leads`. -/
def WFDedup (s : DedupState) : Prop :=
  idxOK s.leads.length s.byId ∧ idxOK s.leads.length s.byPhone ∧
  idxOK s.leads.length s.byDomain

/-- Candidate `c` is already absorbed by accumulator `s`: its place id
resolves to a lead that contains its emails and types, its non-empty
scalar fields, and whose keys are all registered. -/
def AbsorbsLead (s : DedupState) (c : Lead) : Prop :=
  ∃ i L, alLookup c.pid s.byId = some i ∧ nth s.leads i = some L ∧
    (∀ e ∈ c.emails, e ∈ L.emails) ∧ (∀ t ∈ c.types, t ∈ L.types) ∧
    (c.name ≠ "" → L.name ≠ "") ∧
    (∀ p, c.phone = some p → L.phone.isSome ∧ (alLookup p s.byPhone).isSome) ∧
    (∀ d, c.domain = some d → L.domain.isSome ∧ (alLookup d s.byDomain).isSome)

theorem fold_eq_hit {s : DedupState} {c : Lead} {i : Nat} {old : Lead}
    (hh : findHit s c = some i) (hn : nth s.leads i = some old) :
    DedupState.fold s c =
      register { s with leads := setN s.leads i (mergeLead old c) } c i := by
  unfold DedupState.fold
  simp only [hh, hn]

theorem fold_eq_new {s : DedupState} {c : Lead}
    (hh : findHit s c = none) :
    DedupState.fold s c =
      register { s with leads := s.leads ++ [c] } c s.leads.length := by
  unfold DedupState.fold
  simp only [hh]

theorem fold_eq_dangling {s : DedupState} {c : Lead} {j : Nat}
    (hh : findHit s c = some j) (hn : nth s.leads j = none) :
    DedupState.fold s c =
      register { s with leads := s.leads ++ [c] } c s.leads.length := by
  unfold DedupState.fold
  simp only [hh, hn]

theorem idxOK_mono {n n' : Nat} {idx : List (String × Nat)}
    (h : idxOK n idx) (hle : n ≤ n') : idxOK n' idx :=
  fun p hp => Nat.lt_of_lt_of_le (h p hp) hle

theorem idxOK_alInsert {n : Nat} {idx : List (String × Nat)} {k : String} {i : Nat}
    (h : idxOK n idx) (hi : i < n) : idxOK n (alInsert k i idx) := by
  unfold alInsert
  cases alLookup k idx with
  | some w => exact h
  | none =>
    intro p hp
    rcases List.mem_cons.mp hp with hp | hp
    · subst hp; exact hi
    · exact h p hp

theorem idxOK_regKey {n : Nat} {idx : List (String × Nat)} {o : Option String} {i : Nat}
    (h : idxOK n idx) (hi : i < n) : idxOK n (regKey idx i o) := by
  cases o with
  | none => exact h
  | some k => exact idxOK_alInsert h hi

theorem findHit_lt {s : DedupState} {c : Lead} {i : Nat}
    (hwf : WFDedup s) (h : findHit s c = some i) : i < s.leads.length := by
  unfold findHit at h
  cases h1 : alLookup c.pid s.byId with
  | some j =>
    rw [h1] at h
    simp at h
    subst h
    exact hwf.1 _ (alLookup_mem _ _ _ h1)
  | none =>
    rw [h1] at h
    cases h2 : optLookup s.byPhone c.phone with
    | some j =>
      rw [h2] at h
      simp at h
      subst h
      cases hp : c.phone with
      | none => rw [hp] at h2; simp [optLookup] at h2
      | some p =>
        rw [hp] at h2
        exact hwf.2.1 _ (alLookup_mem _ _ _ h2)
    | none =>
      rw [h2] at h
      cases hd : c.domain with
      | none => rw [hd] at h; simp [optLookup] at h
      | some d =>
        rw [hd] at h
        exact hwf.2.2 _ (alLookup_mem _ _ _ h)

theorem findHit_none_byId {s : DedupState} {c : Lead}
    (hh : findHit s c = none) : alLookup c.pid s.byId = none := by
  unfold findHit at hh
  cases h1 : alLookup c.pid s.byId with
  | none => rfl
  | some j => rw [h1] at hh; simp at hh

theorem WFDedup_fold {s : DedupState} (c : Lead) (hwf : WFDedup s) :
    WFDedup (DedupState.fold s c) := by
  cases hh : findHit s c with
  | some i =>
    have hi : i < s.leads.length := findHit_lt hwf hh
    rcases nth_of_lt _ _ hi with ⟨old, hn⟩
    rw [fold_eq_hit hh hn]
    refine ⟨?_, ?_, ?_⟩ <;> simp only [register, length_setN]
    · exact idxOK_alInsert hwf.1 hi
    · exact idxOK_regKey hwf.2.1 hi
    · exact idxOK_regKey hwf.2.2 hi
  | none =>
    rw [fold_eq_new hh]
    have hlt : s.leads.length < (s.leads ++ [c]).length := by simp
    refine ⟨?_, ?_, ?_⟩ <;> simp only [register]
    · exact idxOK_alInsert (idxOK_mono hwf.1 (by simp)) hlt
    · exact idxOK_regKey (idxOK_mono hwf.2.1 (by simp)) hlt
    · exact idxOK_regKey (idxOK_mono hwf.2.2 (by simp)) hlt

theorem WFDedup_foldAll : ∀ (cs : List Lead) (s : DedupState), WFDedup s →
    WFDedup (foldAll s cs)
  | [], _, h => h
  | c :: cs, s, h => WFDedup_foldAll cs _ (WFDedup_fold c h)

theorem WFDedup_init : WFDedup dedupInit := by
  refine ⟨?_, ?_, ?_⟩ <;> intro p hp <;> simp [dedupInit] at hp

/-- Merging an absorbed candidate changes nothing. -/
theorem mergeLead_absorbed {L c : Lead}
    (hem : ∀ e ∈ c.emails, e ∈ L.emails) (hty : ∀ t ∈ c.types, t ∈ L.types)
    (hname : c.name ≠ "" → L.name ≠ "")
    (hph : ∀ p, c.phone = some p → L.phone.isSome)
    (hdo : ∀ d, c.domain = some d → L.domain.isSome) :
    mergeLead L c = L := by
  unfold mergeLead
  have he : unionL L.emails c.emails = L.emails := unionL_absorb _ _ hem
  have ht : unionL L.types c.types = L.types := unionL_absorb _ _ hty
  have hn : pickName L.name c.name = L.name := by
    unfold pickName
    by_cases hL : L.name = ""
    · by_cases hc : c.name = ""
      · simp [hL, hc]
      · exact absurd hL (hname hc)
    · simp [hL]
  have hp : orO L.phone c.phone = L.phone := by
    cases hLp : L.phone with
    | some a => rfl
    | none =>
      cases hcp : c.phone with
      | none => rfl
      | some p => have := hph p hcp; rw [hLp] at this; simp at this
  have hd : orO L.domain c.domain = L.domain := by
    cases hLd : L.domain with
    | some a => rfl
    | none =>
      cases hcd : c.domain with
      | none => rfl
      | some d => have := hdo d hcd; rw [hLd] at this; simp at this
  cases L
  simp_all

/-- Folding an absorbed candidate changes nothing. -/
theorem fold_absorbed {s : DedupState} {c : Lead} (h : AbsorbsLead s c) :
    DedupState.fold s c = s := by
  obtain ⟨i, L, hid, hnth, hem, hty, hname, hph, hdo⟩ := h
  have hhit : findHit s c = some i := by
    unfold findHit
    rw [hid]
  rw [fold_eq_hit hhit hnth]
  have hmerge : mergeLead L c = L :=
    mergeLead_absorbed hem hty hname (fun p hp => (hph p hp).1) (fun d hd => (hdo d hd).1)
  rw [hmerge, setN_same _ _ _ hnth]
  unfold register
  have h1 : alInsert c.pid i s.byId = s.byId :=
    alInsert_of_isSome _ _ _ (by simp [hid])
  have h2 : regKey s.byPhone i c.phone = s.byPhone := by
    cases hp : c.phone with
    | none => rfl
    | some p => exact alInsert_of_isSome _ _ _ (hph p hp).2
  have h3 : regKey s.byDomain i c.domain = s.byDomain := by
    cases hd : c.domain with
    | none => rfl
    | some d => exact alInsert_of_isSome _ _ _ (hdo d hd).2
  rw [h1, h2, h3]

/-- Folding a candidate absorbs it. -/
theorem fold_establishes_absorbed {s : DedupState} (c : Lead) (hwf : WFDedup s) :
    AbsorbsLead (DedupState.fold s c) c := by
  cases hh : findHit s c with
  | some i =>
    have hi : i < s.leads.length := findHit_lt hwf hh
    rcases nth_of_lt _ _ hi with ⟨old, hn⟩
    rw [fold_eq_hit hh hn]
    refine ⟨i, mergeLead old c, ?_, ?_, ?_, ?_, ?_, ?_, ?_⟩
    · show alLookup c.pid (alInsert c.pid i s.byId) = some i
      cases hid : alLookup c.pid s.byId with
      | some j =>
        have hji : j = i := by
          unfold findHit at hh
          rw [hid] at hh
          simpa using hh
        subst hji
        rw [alInsert_of_isSome _ _ _ (by simp [hid])]
        exact hid
      | none => exact alLookup_alInsert_absent _ _ _ hid
    · show nth (setN s.leads i (mergeLead old c)) i = some (mergeLead old c)
      exact nth_setN_self _ _ _ _ hn
    · intro e he
      exact (mem_unionL e _ _).mpr (Or.inr he)
    · intro t ht
      exact (mem_unionL t _ _).mpr (Or.inr ht)
    · intro hc
      show pickName old.name c.name ≠ ""
      unfold pickName
      by_cases hO : old.name = ""
      · rw [if_pos hO]; exact hc
      · rw [if_neg hO]; exact hO
    · intro p hp
      constructor
      · show (orO old.phone c.phone).isSome
        cases old.phone <;> simp [orO, hp]
      · show (alLookup p (regKey s.byPhone i c.phone)).isSome
        rw [hp]
        exact alLookup_alInsert_isSome _ _ _
    · intro d hd
      constructor
      · show (orO old.domain c.domain).isSome
        cases old.domain <;> simp [orO, hd]
      · show (alLookup d (regKey s.byDomain i c.domain)).isSome
        rw [hd]
        exact alLookup_alInsert_isSome _ _ _
  | none =>
    rw [fold_eq_new hh]
    refine ⟨s.leads.length, c, ?_, ?_, fun e he => he, fun t ht => ht, fun hc => hc, ?_, ?_⟩
    · show alLookup c.pid (alInsert c.pid s.leads.length s.byId) = some s.leads.length
      exact alLookup_alInsert_absent _ _ _ (findHit_none_byId hh)
    · show nth (s.leads ++ [c]) s.leads.length = some c
      exact nth_append_length _ _
    · intro p hp
      refine ⟨by simp [hp], ?_⟩
      show (alLookup p (regKey s.byPhone s.leads.length c.phone)).isSome
      rw [hp]
      exact alLookup_alInsert_isSome _ _ _
    · intro d hd
      refine ⟨by simp [hd], ?_⟩
      show (alLookup d (regKey s.byDomain s.leads.length c.domain)).isSome
      rw [hd]
      exact alLookup_alInsert_isSome _ _ _

theorem alLookup_regKey_preserve {idx : List (String × Nat)} {i : Nat}
    (o : Option String) {k : String} {v : Nat} (h : alLookup k idx = some v) :
    alLookup k (regKey idx i o) = some v := by
  cases o with
  | none => exact h
  | some k' => exact alLookup_alInsert_preserve _ _ _ _ _ h

theorem isSome_regKey {idx : List (String × Nat)} {i : Nat}
    (o : Option String) {k : String} (h : (alLookup k idx).isSome) :
    (alLookup k (regKey idx i o)).isSome := by
  rcases Option.isSome_iff_exists.mp h with ⟨v, hv⟩
  cases o with
  | none => exact h
  | some k' =>
    show (alLookup k (alInsert k' i idx)).isSome
    rw [alLookup_alInsert_preserve k' k i v idx hv]
    rfl

/-- Later folds preserve absorption. -/
theorem fold_preserves_absorbed {s : DedupState} {c : Lead} (d : Lead)
    (h : AbsorbsLead s c) : AbsorbsLead (DedupState.fold s d) c := by
  obtain ⟨i, L, hid, hnth, hem, hty, hname, hph, hdo⟩ := h
  cases hh : findHit s d with
  | some j =>
    cases hn : nth s.leads j with
    | some old =>
      rw [fold_eq_hit hh hn]
      by_cases hij : j = i
      · subst hij
        have hLold : L = old := by rw [hnth] at hn; simpa using hn
        subst hLold
        refine ⟨j, mergeLead L d, ?_, ?_, ?_, ?_, ?_, ?_, ?_⟩
        · exact alLookup_alInsert_preserve _ _ _ _ _ hid
        · exact nth_setN_self _ _ _ _ hnth
        · intro e he
          exact (mem_unionL e _ _).mpr (Or.inl (hem e he))
        · intro t ht
          exact (mem_unionL t _ _).mpr (Or.inl (hty t ht))
        · intro hc
          have hL := hname hc
          show pickName L.name d.name ≠ ""
          unfold pickName
          simp [hL]
        · intro p hp
          refine ⟨?_, isSome_regKey _ (hph p hp).2⟩
          rcases Option.isSome_iff_exists.mp (hph p hp).1 with ⟨q, hq⟩
          show (orO L.phone d.phone).isSome
          simp [hq, orO]
        · intro dd hdd
          refine ⟨?_, isSome_regKey _ (hdo dd hdd).2⟩
          rcases Option.isSome_iff_exists.mp (hdo dd hdd).1 with ⟨q, hq⟩
          show (orO L.domain d.domain).isSome
          simp [hq, orO]
      · refine ⟨i, L, ?_, ?_, hem, hty, hname, ?_, ?_⟩
        · exact alLookup_alInsert_preserve _ _ _ _ _ hid
        · show nth (setN s.leads j (mergeLead old d)) i = some L
          rw [nth_setN_ne _ _ _ _ hij]
          exact hnth
        · intro p hp
          exact ⟨(hph p hp).1, isSome_regKey _ (hph p hp).2⟩
        · intro dd hdd
          exact ⟨(hdo dd hdd).1, isSome_regKey _ (hdo dd hdd).2⟩
    | none =>
      rw [fold_eq_dangling hh hn]
      refine ⟨i, L, ?_, ?_, hem, hty, hname, ?_, ?_⟩
      · exact alLookup_alInsert_preserve _ _ _ _ _ hid
      · exact nth_append_left _ _ _ _ hnth
      · intro p hp
        exact ⟨(hph p hp).1, isSome_regKey _ (hph p hp).2⟩
      · intro dd hdd
        exact ⟨(hdo dd hdd).1, isSome_regKey _ (hdo dd hdd).2⟩
  | none =>
    rw [fold_eq_new hh]
    refine ⟨i, L, ?_, ?_, hem, hty, hname, ?_, ?_⟩
    · exact alLookup_alInsert_preserve _ _ _ _ _ hid
    · exact nth_append_left _ _ _ _ hnth
    · intro p hp
      exact ⟨(hph p hp).1, isSome_regKey _ (hph p hp).2⟩
    · intro dd hdd
      exact ⟨(hdo dd hdd).1, isSome_regKey _ (hdo dd hdd).2⟩

theorem foldAll_preserves_absorbed : ∀ (cs : List Lead) (s : DedupState) (c : Lead),
    AbsorbsLead s c → AbsorbsLead (foldAll s cs) c
  | [], _, _, h => h
  | d :: cs, s, c, h => foldAll_preserves_absorbed cs _ c (fold_preserves_absorbed d h)

/-- C9: re-folding an already-merged candidate produces no change to the
accumulated lead set or its three lookup indices.  The accumulator is any
state the Deduplicator can reach from the empty accumulator by folding a
candidate stream containing `c`. -/
theorem dedup_fold_idempotent (cs₁ cs₂ : List Lead) (c : Lead) :
    DedupState.fold (foldAll dedupInit (cs₁ ++ c :: cs₂)) c =
      foldAll dedupInit (cs₁ ++ c :: cs₂) := by
  have hsplit : foldAll dedupInit (cs₁ ++ c :: cs₂) =
      foldAll (DedupState.fold (foldAll dedupInit cs₁) c) cs₂ := by
    unfold foldAll
    rw [List.foldl_append]
    rfl
  rw [hsplit]
  have hwf : WFDedup (foldAll dedupInit cs₁) := WFDedup_foldAll cs₁ dedupInit WFDedup_init
  have habs : AbsorbsLead (DedupState.fold (foldAll dedupInit cs₁) c) c :=
    fold_establishes_absorbed c hwf
  exact fold_absorbed (foldAll_preserves_absorbed cs₂ _ c habs)

/-! ## Crawler (claims C6 and C7)

Modelled from the spec: `lead_engine/crawler.py` is absent from the
provided source.  Spec section 4.4: the crawl starts at the site root,
follows same-domain links only, breadth-first, up to `maxPages`
attempted fetches or until no unvisited same-domain links remain; a
timed-out or erroring page is skipped but still counts against the page
budget.  Terminal status: `unreachable` if the root itself fails,
`timeout` if the root succeeds but no page completes before the
aggregate budget elapses, `ok` once at least one page was fetched, with
`no-emails` the content-level outcome layered on top of `ok`. -/

/-- Is `p` an initial segment of `l`? -/
def leadsWith : List Char → List Char → Bool
  | [], _ => true
  | _ :: _, [] => false
  | a :: ps, b :: ls => a == b && leadsWith ps ls

/-- Drop `p` from the front of `l` when it is an initial segment. -/
def dropIfLead (p l : List Char) : List Char :=
  if leadsWith p l then l.drop p.length else l

/-- Modelled from the spec: normalized domain of a website URL — scheme
and `www.` stripped, path removed; `none` when nothing remains. -/
def normalizeDomain (w : String) : Option String :=
  let cs := dropIfLead "www.".toList
    (dropIfLead "http://".toList (dropIfLead "https://".toList w.toList))
  let dom := cs.takeWhile fun c => c ≠ '/'
  if dom.isEmpty then none else some (String.mk dom)

/-- Domain of a URL (empty string when it has none). -/
def urlDomain (u : String) : String := (normalizeDomain u).getD ""

/-- Do two URLs share a normalized domain? -/
def sameDomain (root u : String) : Bool := urlDomain u == urlDomain root

/-- Outcome of fetching one URL: hard failure, or a document with a
fetch duration, outgoing links and extracted emails. -/
inductive FetchRes : Type
  | failed
  | ok (dur : Nat) (links : List String) (emails : List String)
deriving DecidableEq, Repr

/-- Record of one crawl: every attempted fetch in breadth-first order,
the number of completed documents, and the emails collected. -/
structure CrawlRec where
  attempts : List String
  fetched : Nat
  emails : List String
deriving DecidableEq, Repr

/-- Terminal status of a crawl. -/
inductive CStat : Type
  | ok
  | timeout
  | unreachable
  | noEmails
deriving DecidableEq, Repr

/-- Same-domain links not already seen, deduplicated, in page order. -/
def newLinks (root : String) (seen links : List String) : List String :=
  links.foldl
    (fun acc l =>
      if sameDomain root l && !(memb l seen) && !(memb l acc) then acc ++ [l]
      else acc)
    []

/-- Modelled from the spec: the breadth-first crawl loop.  `b` is the
remaining page budget (a count of attempted fetches, so failed and
timed-out fetches consume it too), `q` the BFS queue, `seen` the URLs
ever enqueued, `el` the elapsed time against the aggregate budget
`total`; `tReq` is the per-request timeout. -/
def crawlLoop (f : String → FetchRes) (root : String) (tReq total : Nat) :
    Nat → List String → List String → Nat → CrawlRec
  | 0, _, _, _ => ⟨[], 0, []⟩
  | _ + 1, [], _, _ => ⟨[], 0, []⟩
  | b + 1, u :: q, seen, el =>
    if total ≤ el then ⟨[], 0, []⟩
    else
      match f u with
      | FetchRes.failed =>
        let rest := crawlLoop f root tReq total b q seen (el + tReq)
        ⟨u :: rest.attempts, rest.fetched, rest.emails⟩
      | FetchRes.ok dur links emails =>
        if total < el + dur ∨ tReq < dur then
          let rest := crawlLoop f root tReq total b q seen (el + tReq)
          ⟨u :: rest.attempts, rest.fetched, rest.emails⟩
        else
          let fresh := newLinks root seen links
          let rest := crawlLoop f root tReq total b (q ++ fresh) (seen ++ fresh) (el + dur)
          ⟨u :: rest.attempts, rest.fetched + 1, rest.emails ++ emails⟩

/-- Modelled from the spec: `crawl(domain, maxPages, timeout)`, starting
from the site root. -/
def crawl (f : String → FetchRes) (root : String) (maxPages tReq total : Nat) :
    CrawlRec :=
  crawlLoop f root tReq total maxPages [root] [root] 0

/-- Modelled from the spec: terminal status classification of a crawl. -/
def classifyCrawl (rootRes : FetchRes) (r : CrawlRec) : CStat :=
  match rootRes with
  | FetchRes.failed => CStat.unreachable
  | FetchRes.ok _ _ _ =>
    if r.fetched = 0 then CStat.timeout
    else if r.emails = [] then CStat.noEmails
    else CStat.ok

/-- A finished crawl: the record plus its terminal status. -/
structure CrawlOutcome where
  run : CrawlRec
  status : CStat
deriving DecidableEq, Repr

/-- Run a crawl and classify its outcome. -/
def runCrawl (f : String → FetchRes) (root : String) (maxPages tReq total : Nat) :
    CrawlOutcome :=
  let r := crawl f root maxPages tReq total
  ⟨r, classifyCrawl (f root) r⟩

theorem crawlLoop_eq_stop (f : String → FetchRes) (root : String) (tReq : Nat)
    {total : Nat} (b : Nat) (u : String) (q seen : List String) {el : Nat}
    (h : total ≤ el) :
    crawlLoop f root tReq total (b + 1) (u :: q) seen el = ⟨[], 0, []⟩ := by
  conv_lhs => rw [crawlLoop]
  rw [if_pos h]

theorem crawlLoop_eq_failed (f : String → FetchRes) (root : String) (tReq : Nat)
    {total : Nat} (b : Nat) {u : String} (q seen : List String) {el : Nat}
    (h : ¬ total ≤ el) (hf : f u = FetchRes.failed) :
    crawlLoop f root tReq total (b + 1) (u :: q) seen el =
      ⟨u :: (crawlLoop f root tReq total b q seen (el + tReq)).attempts,
       (crawlLoop f root tReq total b q seen (el + tReq)).fetched,
       (crawlLoop f root tReq total b q seen (el + tReq)).emails⟩ := by
  conv_lhs => rw [crawlLoop]
  rw [if_neg h]
  simp only [hf]

theorem crawlLoop_eq_slow (f : String → FetchRes) (root : String) (tReq : Nat)
    {total : Nat} (b : Nat) {u : String} (q seen : List String) {el : Nat}
    {dur : Nat} {links emails : List String}
    (h : ¬ total ≤ el) (hf : f u = FetchRes.ok dur links emails)
    (hc : total < el + dur ∨ tReq < dur) :
    crawlLoop f root tReq total (b + 1) (u :: q) seen el =
      ⟨u :: (crawlLoop f root tReq total b q seen (el + tReq)).attempts,
       (crawlLoop f root tReq total b q seen (el + tReq)).fetched,
       (crawlLoop f root tReq total b q seen (el + tReq)).emails⟩ := by
  conv_lhs => rw [crawlLoop]
  rw [if_neg h]
  simp only [hf]
  rw [if_pos hc]

theorem crawlLoop_eq_fetch (f : String → FetchRes) (root : String) (tReq : Nat)
    {total : Nat} (b : Nat) {u : String} (q seen : List String) {el : Nat}
    {dur : Nat} {links emails : List String}
    (h : ¬ total ≤ el) (hf : f u = FetchRes.ok dur links emails)
    (hc : ¬ (total < el + dur ∨ tReq < dur)) :
    crawlLoop f root tReq total (b + 1) (u :: q) seen el =
      ⟨u :: (crawlLoop f root tReq total b (q ++ newLinks root seen links)
              (seen ++ newLinks root seen links) (el + dur)).attempts,
       (crawlLoop f root tReq total b (q ++ newLinks root seen links)
              (seen ++ newLinks root seen links) (el + dur)).fetched + 1,
       (crawlLoop f root tReq total b (q ++ newLinks root seen links)
              (seen ++ newLinks root seen links) (el + dur)).emails ++ emails⟩ := by
  conv_lhs => rw [crawlLoop]
  rw [if_neg h]
  simp only [hf]
  rw [if_neg hc]

theorem crawlLoop_attempts_le (f : String → FetchRes) (root : String) (tReq total : Nat) :
    ∀ (b : Nat) (q seen : List String) (el : Nat),
      (crawlLoop f root tReq total b q seen el).attempts.length ≤ b := by
  intro b
  induction b with
  | zero => intro q seen el; simp [crawlLoop]
  | succ b ih =>
    intro q seen el
    cases q with
    | nil => simp [crawlLoop]
    | cons u q =>
      by_cases h : total ≤ el
      · rw [crawlLoop_eq_stop f root tReq b u q seen h]
        simp
      · cases hf : f u with
        | failed =>
          rw [crawlLoop_eq_failed f root tReq b q seen h hf]
          simpa using Nat.succ_le_succ (ih q seen (el + tReq))
        | ok dur links emails =>
          by_cases hc : total < el + dur ∨ tReq < dur
          · rw [crawlLoop_eq_slow f root tReq b q seen h hf hc]
            simpa using Nat.succ_le_succ (ih q seen (el + tReq))
          · rw [crawlLoop_eq_fetch f root tReq b q seen h hf hc]
            simpa using Nat.succ_le_succ
              (ih (q ++ newLinks root seen links) (seen ++ newLinks root seen links) (el + dur))

theorem crawlLoop_fetched_le (f : String → FetchRes) (root : String) (tReq total : Nat) :
    ∀ (b : Nat) (q seen : List String) (el : Nat),
      (crawlLoop f root tReq total b q seen el).fetched ≤
        (crawlLoop f root tReq total b q seen el).attempts.length := by
  intro b
  induction b with
  | zero => intro q seen el; simp [crawlLoop]
  | succ b ih =>
    intro q seen el
    cases q with
    | nil => simp [crawlLoop]
    | cons u q =>
      by_cases h : total ≤ el
      · rw [crawlLoop_eq_stop f root tReq b u q seen h]
        simp
      · cases hf : f u with
        | failed =>
          rw [crawlLoop_eq_failed f root tReq b q seen h hf]
          simpa using Nat.le_succ_of_le (ih q seen (el + tReq))
        | ok dur links emails =>
          by_cases hc : total < el + dur ∨ tReq < dur
          · rw [crawlLoop_eq_slow f root tReq b q seen h hf hc]
            simpa using Nat.le_succ_of_le (ih q seen (el + tReq))
          · rw [crawlLoop_eq_fetch f root tReq b q seen h hf hc]
            simpa using Nat.succ_le_succ
              (ih (q ++ newLinks root seen links) (seen ++ newLinks root seen links) (el + dur))

theorem mem_newLinks (root : String) (seen links : List String) :
    ∀ u ∈ newLinks root seen links, sameDomain root u = true := by
  unfold newLinks
  suffices h : ∀ (acc : List String), (∀ x ∈ acc, sameDomain root x = true) →
      ∀ u ∈ links.foldl
        (fun acc l =>
          if sameDomain root l && !(memb l seen) && !(memb l acc) then acc ++ [l]
          else acc) acc,
      sameDomain root u = true by
    intro u hu
    exact h [] (by simp) u hu
  induction links with
  | nil =>
    intro acc hacc u hu
    simpa using hacc u hu
  | cons l ls ih =>
    intro acc hacc u hu
    simp only [List.foldl_cons] at hu
    refine ih _ ?_ u hu
    intro x hx
    by_cases hc : (sameDomain root l && !(memb l seen) && !(memb l acc)) = true
    · rw [if_pos hc] at hx
      rcases List.mem_append.mp hx with hx | hx
      · exact hacc x hx
      · have hxl : x = l := by simpa using hx
        subst hxl
        simp only [Bool.and_eq_true] at hc
        exact hc.1.1
    · rw [if_neg hc] at hx
      exact hacc x hx

theorem crawlLoop_same_domain (f : String → FetchRes) (root : String) (tReq total : Nat) :
    ∀ (b : Nat) (q seen : List String) (el : Nat),
      (∀ u ∈ q, sameDomain root u = true) →
      ∀ u ∈ (crawlLoop f root tReq total b q seen el).attempts,
        sameDomain root u = true := by
  intro b
  induction b with
  | zero => intro q seen el hq u hu; simp [crawlLoop] at hu
  | succ b ih =>
    intro q seen el hq u hu
    cases q with
    | nil => simp [crawlLoop] at hu
    | cons v q =>
      by_cases h : total ≤ el
      · rw [crawlLoop_eq_stop f root tReq b v q seen h] at hu
        simp at hu
      · cases hf : f v with
        | failed =>
          rw [crawlLoop_eq_failed f root tReq b q seen h hf] at hu
          simp only [List.mem_cons] at hu
          rcases hu with hu | hu
          · subst hu; exact hq u (List.mem_cons_self _ _)
          · exact ih q seen (el + tReq) (fun x hx => hq x (List.mem_cons_of_mem _ hx)) u hu
        | ok dur links emails =>
          by_cases hc : total < el + dur ∨ tReq < dur
          · rw [crawlLoop_eq_slow f root tReq b q seen h hf hc] at hu
            simp only [List.mem_cons] at hu
            rcases hu with hu | hu
            · subst hu; exact hq u (List.mem_cons_self _ _)
            · exact ih q seen (el + tReq) (fun x hx => hq x (List.mem_cons_of_mem _ hx)) u hu
          · rw [crawlLoop_eq_fetch f root tReq b q seen h hf hc] at hu
            simp only [List.mem_cons] at hu
            rcases hu with hu | hu
            · subst hu; exact hq u (List.mem_cons_self _ _)
            · refine ih (q ++ newLinks root seen links) (seen ++ newLinks root seen links)
                (el + dur) ?_ u hu
              intro x hx
              rcases List.mem_append.mp hx with hx | hx
              · exact hq x (List.mem_cons_of_mem _ hx)
              · exact mem_newLinks root seen links x hx

/-- C6: with a page budget of 6, a crawl attempts at most 6 fetches no
matter how many same-domain links exist; the budget counts attempted
fetches, so completed documents never exceed attempts (failed and
timed-out fetches consume budget too); and every attempted URL is on the
root's domain. -/
theorem crawl_budget_bound (f : String → FetchRes) (root : String) (tReq total : Nat) :
    (runCrawl f root 6 tReq total).run.attempts.length ≤ 6 ∧
    (runCrawl f root 6 tReq total).run.fetched ≤
      (runCrawl f root 6 tReq total).run.attempts.length ∧
    (∀ u ∈ (runCrawl f root 6 tReq total).run.attempts, sameDomain root u = true) := by
  refine ⟨crawlLoop_attempts_le f root tReq total 6 [root] [root] 0,
          crawlLoop_fetched_le f root tReq total 6 [root] [root] 0, ?_⟩
  refine crawlLoop_same_domain f root tReq total 6 [root] [root] 0 ?_
  intro u hu
  have hroot : u = root := by simpa using hu
  subst hroot
  simp [sameDomain]

/-- Witness for C6 on a concrete single-page site. -/
theorem crawl_budget_bound_witness :
    (runCrawl (fun _ => FetchRes.ok 1 [] ["a@b.com"]) "http://b.com" 6 5 100).run.attempts.length ≤ 6 ∧
    (runCrawl (fun _ => FetchRes.ok 1 [] ["a@b.com"]) "http://b.com" 6 5 100).run.fetched ≤
      (runCrawl (fun _ => FetchRes.ok 1 [] ["a@b.com"]) "http://b.com" 6 5 100).run.attempts.length ∧
    sameDomain "http://b.com" "http://b.com" = true :=
  ⟨(crawl_budget_bound (fun _ => FetchRes.ok 1 [] ["a@b.com"]) "http://b.com" 5 100).1,
   (crawl_budget_bound (fun _ => FetchRes.ok 1 [] ["a@b.com"]) "http://b.com" 5 100).2.1,
   (crawl_budget_bound (fun _ => FetchRes.ok 1 [] ["a@b.com"]) "http://b.com" 5 100).2.2
     "http://b.com" (by decide)⟩

/-- C7: the terminal status of a crawl is `unreachable` exactly when the
root fetch fails; `timeout` exactly when the root succeeds but no page
completes; `no-emails` exactly when pages were fetched but no email was
found (a valid outcome layered on top of `ok`, not an error); and `ok`
exactly when pages were fetched and emails were found. -/
theorem crawl_status_characterization (f : String → FetchRes) (root : String)
    (maxPages tReq total : Nat) :
    ((runCrawl f root maxPages tReq total).status = CStat.unreachable ↔
      f root = FetchRes.failed) ∧
    ((runCrawl f root maxPages tReq total).status = CStat.timeout ↔
      f root ≠ FetchRes.failed ∧ (runCrawl f root maxPages tReq total).run.fetched = 0) ∧
    ((runCrawl f root maxPages tReq total).status = CStat.noEmails ↔
      f root ≠ FetchRes.failed ∧ (runCrawl f root maxPages tReq total).run.fetched ≠ 0 ∧
      (runCrawl f root maxPages tReq total).run.emails = []) ∧
    ((runCrawl f root maxPages tReq total).status = CStat.ok ↔
      f root ≠ FetchRes.failed ∧ (runCrawl f root maxPages tReq total).run.fetched ≠ 0 ∧
      (runCrawl f root maxPages tReq total).run.emails ≠ []) := by
  unfold runCrawl classifyCrawl
  cases hf : f root with
  | failed => simp
  | ok dur links emails =>
    by_cases h0 : (crawl f root maxPages tReq total).fetched = 0
    · simp [h0]
    · by_cases he : (crawl f root maxPages tReq total).emails = []
      · simp [h0, he]
      · simp [h0, he]

/-! ## SearchClient, CacheStore and Pipeline (claims C1, C3, C5, C8)

Modelled from the spec: `lead_engine/places.py`, `cache.py` and the
pipeline orchestrator are absent from the provided source.  Spec
sections 4.2, 4.3 and 4.7: search pages, place details and crawl results
are cached with cache-aside reads; a cache hit skips the network call
entirely; pagination waits the provider-mandated settling delay before
each further page request and stops at `maxPages`, result exhaustion, or
once enough raw candidates were observed. -/

/-- One page of a paginated text search: the place ids it returned and
whether the provider issued a next-page token. -/
structure Page where
  placeIds : List String
  hasNext : Bool
deriving DecidableEq, Repr

/-- Place detail payload under the fixed field mask (modelled subset:
name, phone, website, types). -/
structure Detail where
  name : String
  phone : Option String
  website : Option String
  types : List String
deriving DecidableEq, Repr

/-- Cached result of crawling one domain: the extracted emails and the
number of fetches the crawl attempted (each a network call). -/
structure CrawlSummary where
  emails : List String
  attempts : Nat
deriving DecidableEq, Repr

/-- The deterministic external provider: search pages by
(query, location, page index), details by place id, and the crawl
outcome of each domain. -/
structure Provider where
  page : String → String → Nat → Page
  detail : String → Detail
  site : String → CrawlSummary

/-- The CacheStore tables (spec section 6): search pages keyed by
(query, location, page index), details by place id, crawl results by
domain.  A (kind, key) pair maps to at most one live entry. -/
structure Cache where
  pages : List ((String × String × Nat) × Page)
  details : List (String × Detail)
  crawls : List (String × CrawlSummary)
deriving DecidableEq, Repr

/-- Cold-start cache. -/
def emptyCache : Cache := ⟨[], [], []⟩

/-- Resolved run configuration consumed from the CLI layer. -/
structure Config where
  maxPages : Nat
  maxResults : Nat
  sleepMs : Nat
  qps : Int
  crawlOn : Bool
deriving DecidableEq, Repr

/-- Modelled from the spec: normalized phone — digits only, leading
country code stripped. -/
def normPhone (s : String) : Option String :=
  let ds := s.toList.filter Char.isDigit
  let ds := if ds.length = 11 ∧ nth ds 0 = some '1' then ds.drop 1 else ds
  if ds.isEmpty then none else some (String.mk ds)

/-- Observable events of the search pagination: a cache hit for a page,
a settling-delay sleep, or a network page request. -/
inductive SEvent : Type
  | hit (i : Nat)
  | sleep (ms : Nat)
  | request (i : Nat)
deriving DecidableEq, Repr

/-- Result of the paginated search: pages in order, the cache after the
loop, the network calls issued, and the event trace. -/
structure SearchOut where
  pages : List Page
  cache : Cache
  calls : Nat
  events : List SEvent
deriving Repr

/-- Store a fetched search page. -/
def putPage (q l : String) (i : Nat) (p : Page) (c : Cache) : Cache :=
  { c with pages := alInsert (q, l, i) p c.pages }

/-- Events of one network page request: page 0 goes out immediately;
any later page is requested only after the settling-delay sleep. -/
def reqEvents (d i : Nat) : List SEvent :=
  match i with
  | 0 => [SEvent.request 0]
  | _ + 1 => [SEvent.sleep d, SEvent.request i]

/-- Provider-mandated settling delay before using a next-page token. -/
def settlingDelayMs : Nat := 2000

/-- Modelled from the spec: the pagination loop of `searchText`.  Each
page is read cache-aside; a cache hit skips the network call and the
rate limiter entirely; a miss sleeps the settling delay (for pages after
the first), requests the page, and stores it.  The loop continues while
the provider returned a next-page token, more raw candidates are needed
(`need`), and the `fuel` page budget remains. -/
def searchLoop (pr : Provider) (q l : String) (d : Nat) :
    Nat → Nat → Nat → Cache → SearchOut
  | 0, _, _, c => ⟨[], c, 0, []⟩
  | fuel + 1, i, need, c =>
    match alLookup (q, l, i) c.pages with
    | some p =>
      if p.hasNext = true ∧ p.placeIds.length < need then
        let r := searchLoop pr q l d fuel (i + 1) (need - p.placeIds.length) c
        ⟨p :: r.pages, r.cache, r.calls, SEvent.hit i :: r.events⟩
      else ⟨[p], c, 0, [SEvent.hit i]⟩
    | none =>
      let p := pr.page q l i
      if p.hasNext = true ∧ p.placeIds.length < need then
        let r := searchLoop pr q l d fuel (i + 1) (need - p.placeIds.length)
          (putPage q l i p c)
        ⟨p :: r.pages, r.cache, r.calls + 1, reqEvents d i ++ r.events⟩
      else ⟨[p], putPage q l i p c, 1, reqEvents d i⟩

/-- Modelled from the spec: `searchText(query, location)` under a run
configuration, from page 0. -/
def searchText (pr : Provider) (cfg : Config) (q l : String) (c : Cache) : SearchOut :=
  searchLoop pr q l settlingDelayMs cfg.maxPages 0 cfg.maxResults c

/-- Number of network page requests in a trace. -/
def countReq : List SEvent → Nat
  | [] => 0
  | SEvent.request _ :: r => countReq r + 1
  | _ :: r => countReq r

/-- Every network request for a page after the first is immediately
preceded by the settling-delay sleep. -/
def wellDelayed (d : Nat) : List SEvent → Bool
  | SEvent.sleep d' :: SEvent.request _ :: rest => d' == d && wellDelayed d rest
  | SEvent.request 0 :: rest => wellDelayed d rest
  | SEvent.request (_ + 1) :: _ => false
  | _ :: rest => wellDelayed d rest
  | [] => true

theorem searchLoop_eq_hit_cont {pr : Provider} {q l : String} {d fuel i need : Nat}
    {c : Cache} {p : Page} (hlk : alLookup (q, l, i) c.pages = some p)
    (hc : p.hasNext = true ∧ p.placeIds.length < need) :
    searchLoop pr q l d (fuel + 1) i need c =
      ⟨p :: (searchLoop pr q l d fuel (i + 1) (need - p.placeIds.length) c).pages,
       (searchLoop pr q l d fuel (i + 1) (need - p.placeIds.length) c).cache,
       (searchLoop pr q l d fuel (i + 1) (need - p.placeIds.length) c).calls,
       SEvent.hit i :: (searchLoop pr q l d fuel (i + 1) (need - p.placeIds.length) c).events⟩ := by
  conv_lhs => rw [searchLoop]
  simp only [hlk]
  rw [if_pos hc]

theorem searchLoop_eq_hit_stop {pr : Provider} {q l : String} {d fuel i need : Nat}
    {c : Cache} {p : Page} (hlk : alLookup (q, l, i) c.pages = some p)
    (hc : ¬ (p.hasNext = true ∧ p.placeIds.length < need)) :
    searchLoop pr q l d (fuel + 1) i need c = ⟨[p], c, 0, [SEvent.hit i]⟩ := by
  conv_lhs => rw [searchLoop]
  simp only [hlk]
  rw [if_neg hc]

theorem searchLoop_eq_miss_cont {pr : Provider} {q l : String} {d fuel i need : Nat}
    {c : Cache} (hlk : alLookup (q, l, i) c.pages = none)
    (hc : (pr.page q l i).hasNext = true ∧ (pr.page q l i).placeIds.length < need) :
    searchLoop pr q l d (fuel + 1) i need c =
      ⟨pr.page q l i :: (searchLoop pr q l d fuel (i + 1)
          (need - (pr.page q l i).placeIds.length) (putPage q l i (pr.page q l i) c)).pages,
       (searchLoop pr q l d fuel (i + 1)
          (need - (pr.page q l i).placeIds.length) (putPage q l i (pr.page q l i) c)).cache,
       (searchLoop pr q l d fuel (i + 1)
          (need - (pr.page q l i).placeIds.length) (putPage q l i (pr.page q l i) c)).calls + 1,
       reqEvents d i ++ (searchLoop pr q l d fuel (i + 1)
          (need - (pr.page q l i).placeIds.length) (putPage q l i (pr.page q l i) c)).events⟩ := by
  conv_lhs => rw [searchLoop]
  simp only [hlk]
  rw [if_pos hc]

theorem searchLoop_eq_miss_stop {pr : Provider} {q l : String} {d fuel i need : Nat}
    {c : Cache} (hlk : alLookup (q, l, i) c.pages = none)
    (hc : ¬ ((pr.page q l i).hasNext = true ∧ (pr.page q l i).placeIds.length < need)) :
    searchLoop pr q l d (fuel + 1) i need c =
      ⟨[pr.page q l i], putPage q l i (pr.page q l i) c, 1, reqEvents d i⟩ := by
  conv_lhs => rw [searchLoop]
  simp only [hlk]
  rw [if_neg hc]

theorem countReq_append : ∀ (a b : List SEvent),
    countReq (a ++ b) = countReq a + countReq b
  | [], b => by simp [countReq]
  | SEvent.hit i :: r, b => by
    simpa [countReq] using countReq_append r b
  | SEvent.sleep d :: r, b => by
    simpa [countReq] using countReq_append r b
  | SEvent.request i :: r, b => by
    simp [countReq, countReq_append r b]
    omega

theorem countReq_reqEvents (d i : Nat) : countReq (reqEvents d i) = 1 := by
  cases i <;> simp [reqEvents, countReq]

theorem searchLoop_countReq_le (pr : Provider) (q l : String) (d : Nat) :
    ∀ (fuel i need : Nat) (c : Cache),
      countReq (searchLoop pr q l d fuel i need c).events ≤ fuel := by
  intro fuel
  induction fuel with
  | zero => intro i need c; simp [searchLoop, countReq]
  | succ fuel ih =>
    intro i need c
    cases hlk : alLookup (q, l, i) c.pages with
    | some p =>
      by_cases hc : p.hasNext = true ∧ p.placeIds.length < need
      · rw [searchLoop_eq_hit_cont hlk hc]
        simpa [countReq] using Nat.le_succ_of_le (ih (i + 1) (need - p.placeIds.length) c)
      · rw [searchLoop_eq_hit_stop hlk hc]
        simp [countReq]
    | none =>
      by_cases hc : (pr.page q l i).hasNext = true ∧ (pr.page q l i).placeIds.length < need
      · rw [searchLoop_eq_miss_cont hlk hc]
        simp only [countReq_append, countReq_reqEvents]
        have := ih (i + 1) (need - (pr.page q l i).placeIds.length)
          (putPage q l i (pr.page q l i) c)
        omega
      · rw [searchLoop_eq_miss_stop hlk hc]
        simp [countReq_reqEvents]

theorem wellDelayed_hit (d i : Nat) (rest : List SEvent) :
    wellDelayed d (SEvent.hit i :: rest) = wellDelayed d rest := rfl

theorem wellDelayed_reqEvents (d i : Nat) (rest : List SEvent) :
    wellDelayed d (reqEvents d i ++ rest) = wellDelayed d rest := by
  cases i with
  | zero => rfl
  | succ j =>
    show (d == d && wellDelayed d rest) = wellDelayed d rest
    simp

theorem searchLoop_wellDelayed (pr : Provider) (q l : String) (d : Nat) :
    ∀ (fuel i need : Nat) (c : Cache),
      wellDelayed d (searchLoop pr q l d fuel i need c).events = true := by
  intro fuel
  induction fuel with
  | zero => intro i need c; simp [searchLoop, wellDelayed]
  | succ fuel ih =>
    intro i need c
    cases hlk : alLookup (q, l, i) c.pages with
    | some p =>
      by_cases hc : p.hasNext = true ∧ p.placeIds.length < need
      · rw [searchLoop_eq_hit_cont hlk hc]
        show wellDelayed d (SEvent.hit i ::
          (searchLoop pr q l d fuel (i + 1) (need - p.placeIds.length) c).events) = true
        rw [wellDelayed_hit]
        exact ih (i + 1) (need - p.placeIds.length) c
      · rw [searchLoop_eq_hit_stop hlk hc]
        rfl
    | none =>
      by_cases hc : (pr.page q l i).hasNext = true ∧ (pr.page q l i).placeIds.length < need
      · rw [searchLoop_eq_miss_cont hlk hc]
        show wellDelayed d (reqEvents d i ++ (searchLoop pr q l d fuel (i + 1)
          (need - (pr.page q l i).placeIds.length) (putPage q l i (pr.page q l i) c)).events) = true
        rw [wellDelayed_reqEvents]
        exact ih (i + 1) (need - (pr.page q l i).placeIds.length)
          (putPage q l i (pr.page q l i) c)
      · rw [searchLoop_eq_miss_stop hlk hc]
        show wellDelayed d (reqEvents d i) = true
        cases i with
        | zero => rfl
        | succ j =>
          show (d == d && wellDelayed d []) = true
          simp [wellDelayed]

/-- C5: for any query/location pair under a validated configuration
(`maxPages ≤ 3`), `searchText` issues at most 3 page requests, and every
request for a page after the first is immediately preceded in the event
trace by the provider-mandated settling-delay sleep. -/
theorem search_pagination_bounded (pr : Provider) (cfg : Config) (q l : String)
    (c : Cache) (h : cfg.maxPages ≤ 3) :
    countReq (searchText pr cfg q l c).events ≤ 3 ∧
    wellDelayed settlingDelayMs (searchText pr cfg q l c).events = true :=
  ⟨Nat.le_trans
    (searchLoop_countReq_le pr q l settlingDelayMs cfg.maxPages 0 cfg.maxResults c) h,
   searchLoop_wellDelayed pr q l settlingDelayMs cfg.maxPages 0 cfg.maxResults c⟩

/-- Witness for C5 on a concrete provider that always returns a
next-page token. -/
theorem search_pagination_bounded_witness :
    countReq (searchText
      ⟨fun _ _ i => ⟨[toString i], true⟩, fun _ => ⟨"", none, none, []⟩, fun _ => ⟨[], 0⟩⟩
      ⟨3, 100, 200, 10, true⟩ "plumbers" "Austin, TX" emptyCache).events ≤ 3 ∧
    wellDelayed settlingDelayMs (searchText
      ⟨fun _ _ i => ⟨[toString i], true⟩, fun _ => ⟨"", none, none, []⟩, fun _ => ⟨[], 0⟩⟩
      ⟨3, 100, 200, 10, true⟩ "plumbers" "Austin, TX" emptyCache).events = true :=
  search_pagination_bounded
    ⟨fun _ _ i => ⟨[toString i], true⟩, fun _ => ⟨"", none, none, []⟩, fun _ => ⟨[], 0⟩⟩
    ⟨3, 100, 200, 10, true⟩ "plumbers" "Austin, TX" emptyCache (by decide)

/-! ### Cache-aside enrichment and the per-pair pipeline (claim C1) -/

/-- Emails ordered by quality: personal before generic. -/
def orderEmails (es : List String) : List String :=
  es.filter (fun e => qualityOf e == Quality.personal) ++
  es.filter (fun e => !(qualityOf e == Quality.personal))

/-- Build a candidate lead from a place id, its detail payload, its
normalized domain and the crawled emails. -/
def mkLead (pid : String) (dt : Detail) (dom : Option String) (es : List String) : Lead :=
  { pid := pid
    name := dt.name
    phone := dt.phone.bind normPhone
    domain := dom
    emails := orderEmails es
    types := dt.types }

/-- A value read through the cache, the cache afterwards, and the
network calls the read cost. -/
structure FetchOut (α : Type) where
  val : α
  cache : Cache
  calls : Nat

/-- Modelled from the spec: `fetchDetails(placeId)`, cache-aside — a hit
skips the network entirely, a miss fetches and stores. -/
def fetchDetails (pr : Provider) (c : Cache) (pid : String) : FetchOut Detail :=
  match alLookup pid c.details with
  | some dt => ⟨dt, c, 0⟩
  | none =>
    ⟨pr.detail pid, { c with details := alInsert pid (pr.detail pid) c.details }, 1⟩

/-- Modelled from the spec: the per-domain crawl, cache-aside, so a
domain shared by several places crawls exactly once; a miss costs the
crawl's attempted fetches in network calls. -/
def cachedCrawl (pr : Provider) (c : Cache) (dm : String) : FetchOut CrawlSummary :=
  match alLookup dm c.crawls with
  | some cs => ⟨cs, c, 0⟩
  | none =>
    ⟨pr.site dm, { c with crawls := alInsert dm (pr.site dm) c.crawls },
     (pr.site dm).attempts⟩

/-- Modelled from the spec: enrich one place — fetch its details, then
optionally crawl its website domain, and assemble the candidate lead. -/
def enrichPlace (pr : Provider) (crawlOn : Bool) (c : Cache) (pid : String) :
    FetchOut Lead :=
  let r1 := fetchDetails pr c pid
  let dom := r1.val.website.bind normalizeDomain
  if crawlOn then
    match dom with
    | some dm =>
      let r2 := cachedCrawl pr r1.cache dm
      ⟨mkLead pid r1.val (some dm) r2.val.emails, r2.cache, r1.calls + r2.calls⟩
    | none => ⟨mkLead pid r1.val none [], r1.cache, r1.calls⟩
  else ⟨mkLead pid r1.val dom [], r1.cache, r1.calls⟩

/-- Candidate leads of a pair, the cache afterwards, and network calls. -/
structure EnrichOut where
  cands : List Lead
  cache : Cache
  calls : Nat

/-- Enrich every raw place candidate in order. -/
def enrichAll (pr : Provider) (crawlOn : Bool) : List String → Cache → EnrichOut
  | [], c => ⟨[], c, 0⟩
  | pid :: rest, c =>
    let r1 := enrichPlace pr crawlOn c pid
    let r := enrichAll pr crawlOn rest r1.cache
    ⟨r1.val :: r.cands, r.cache, r1.calls + r.calls⟩

/-- Raw place candidates of the fetched pages, in page order. -/
def collectPids (ps : List Page) : List String :=
  (ps.map Page.placeIds).join

/-- Result of processing one query/location pair: the deduplicated
output, the candidate stream, the cache, the network calls, and the
pagination events. -/
structure PairOut where
  out : List Lead
  cands : List Lead
  cache : Cache
  calls : Nat
  events : List SEvent

/-- Modelled from the spec: the pipeline for one query/location pair —
paginated cached search, cache-aside enrichment of each place up to the
result cap, then the Deduplicator fold. -/
def runPair (pr : Provider) (cfg : Config) (q l : String) (c : Cache) : PairOut :=
  let s := searchText pr cfg q l c
  let pids := (collectPids s.pages).take cfg.maxResults
  let e := enrichAll pr cfg.crawlOn pids s.cache
  ⟨(foldAll dedupInit e.cands).leads, e.cands, e.cache, s.calls + e.calls, s.events⟩

/-- Cache inclusion: every cached binding of `c` is cached identically
in `c'` (entries are never overwritten, so caches only grow). -/
def subC (c c' : Cache) : Prop :=
  (∀ k v, alLookup k c.pages = some v → alLookup k c'.pages = some v) ∧
  (∀ k v, alLookup k c.details = some v → alLookup k c'.details = some v) ∧
  (∀ k v, alLookup k c.crawls = some v → alLookup k c'.crawls = some v)

theorem subC_refl (c : Cache) : subC c c :=
  ⟨fun _ _ h => h, fun _ _ h => h, fun _ _ h => h⟩

theorem subC_trans {a b c : Cache} (h1 : subC a b) (h2 : subC b c) : subC a c :=
  ⟨fun k v h => h2.1 k v (h1.1 k v h),
   fun k v h => h2.2.1 k v (h1.2.1 k v h),
   fun k v h => h2.2.2 k v (h1.2.2 k v h)⟩

theorem subC_putPage (q l : String) (i : Nat) (p : Page) (c : Cache) :
    subC c (putPage q l i p c) :=
  ⟨fun k v h => alLookup_alInsert_preserve _ _ _ _ _ h,
   fun _ _ h => h, fun _ _ h => h⟩

theorem searchLoop_mono (pr : Provider) (q l : String) (d : Nat) :
    ∀ (fuel i need : Nat) (c : Cache),
      subC c (searchLoop pr q l d fuel i need c).cache := by
  intro fuel
  induction fuel with
  | zero => intro i need c; exact subC_refl c
  | succ fuel ih =>
    intro i need c
    cases hlk : alLookup (q, l, i) c.pages with
    | some p =>
      by_cases hc : p.hasNext = true ∧ p.placeIds.length < need
      · rw [searchLoop_eq_hit_cont hlk hc]
        exact ih (i + 1) (need - p.placeIds.length) c
      · rw [searchLoop_eq_hit_stop hlk hc]
        exact subC_refl c
    | none =>
      by_cases hc : (pr.page q l i).hasNext = true ∧ (pr.page q l i).placeIds.length < need
      · rw [searchLoop_eq_miss_cont hlk hc]
        exact subC_trans (subC_putPage q l i (pr.page q l i) c)
          (ih (i + 1) (need - (pr.page q l i).placeIds.length) (putPage q l i (pr.page q l i) c))
      · rw [searchLoop_eq_miss_stop hlk hc]
        exact subC_putPage q l i (pr.page q l i) c

theorem putPage_cached (q l : String) (i : Nat) (p : Page) (c : Cache)
    (h : alLookup (q, l, i) c.pages = none) :
    alLookup (q, l, i) (putPage q l i p c).pages = some p :=
  alLookup_alInsert_absent _ _ _ h

/-- Replay: on any cache extending the loop's final cache, the loop
returns the same pages, leaves the cache untouched and issues zero
network calls. -/
theorem searchLoop_replay (pr : Provider) (q l : String) (d : Nat) :
    ∀ (fuel i need : Nat) (c c'' : Cache),
      subC (searchLoop pr q l d fuel i need c).cache c'' →
      (searchLoop pr q l d fuel i need c'').pages = (searchLoop pr q l d fuel i need c).pages ∧
      (searchLoop pr q l d fuel i need c'').cache = c'' ∧
      (searchLoop pr q l d fuel i need c'').calls = 0 := by
  intro fuel
  induction fuel with
  | zero => intro i need c c'' h; exact ⟨rfl, rfl, rfl⟩
  | succ fuel ih =>
    intro i need c c'' h
    cases hlk : alLookup (q, l, i) c.pages with
    | some p =>
      by_cases hc : p.hasNext = true ∧ p.placeIds.length < need
      · rw [searchLoop_eq_hit_cont hlk hc] at h
        have hin : alLookup (q, l, i) c''.pages = some p := by
          refine h.1 _ _ ?_
          exact (searchLoop_mono pr q l d fuel (i + 1) (need - p.placeIds.length) c).1 _ _ hlk
        rw [searchLoop_eq_hit_cont hin hc, searchLoop_eq_hit_cont hlk hc]
        have hrec := ih (i + 1) (need - p.placeIds.length) c c'' h
        exact ⟨by rw [hrec.1], hrec.2.1, by rw [hrec.2.2]⟩
      · rw [searchLoop_eq_hit_stop hlk hc] at h
        have hin : alLookup (q, l, i) c''.pages = some p := h.1 _ _ hlk
        rw [searchLoop_eq_hit_stop hin hc, searchLoop_eq_hit_stop hlk hc]
        exact ⟨rfl, rfl, rfl⟩
    | none =>
      by_cases hc : (pr.page q l i).hasNext = true ∧ (pr.page q l i).placeIds.length < need
      · rw [searchLoop_eq_miss_cont hlk hc] at h
        have hin : alLookup (q, l, i) c''.pages = some (pr.page q l i) := by
          refine h.1 _ _ ?_
          refine (searchLoop_mono pr q l d fuel (i + 1)
            (need - (pr.page q l i).placeIds.length) (putPage q l i (pr.page q l i) c)).1 _ _ ?_
          exact putPage_cached q l i (pr.page q l i) c hlk
        rw [searchLoop_eq_hit_cont hin hc, searchLoop_eq_miss_cont hlk hc]
        have hrec := ih (i + 1) (need - (pr.page q l i).placeIds.length)
          (putPage q l i (pr.page q l i) c) c'' h
        exact ⟨by rw [hrec.1], hrec.2.1, by rw [hrec.2.2]⟩
      · rw [searchLoop_eq_miss_stop hlk hc] at h
        have hin : alLookup (q, l, i) c''.pages = some (pr.page q l i) :=
          h.1 _ _ (putPage_cached q l i (pr.page q l i) c hlk)
        rw [searchLoop_eq_hit_stop hin hc, searchLoop_eq_miss_stop hlk hc]
        exact ⟨rfl, rfl, rfl⟩

theorem fetchDetails_eq_hit {pr : Provider} {c : Cache} {pid : String} {dt : Detail}
    (h : alLookup pid c.details = some dt) : fetchDetails pr c pid = ⟨dt, c, 0⟩ := by
  unfold fetchDetails
  simp only [h]

theorem fetchDetails_eq_miss {pr : Provider} {c : Cache} {pid : String}
    (h : alLookup pid c.details = none) :
    fetchDetails pr c pid =
      ⟨pr.detail pid, { c with details := alInsert pid (pr.detail pid) c.details }, 1⟩ := by
  unfold fetchDetails
  simp only [h]

theorem fetchDetails_mono (pr : Provider) (c : Cache) (pid : String) :
    subC c (fetchDetails pr c pid).cache := by
  cases h : alLookup pid c.details with
  | some dt => rw [fetchDetails_eq_hit h]; exact subC_refl c
  | none =>
    rw [fetchDetails_eq_miss h]
    exact ⟨fun _ _ hv => hv,
           fun _ _ hv => alLookup_alInsert_preserve _ _ _ _ _ hv,
           fun _ _ hv => hv⟩

theorem fetchDetails_cached (pr : Provider) (c : Cache) (pid : String) :
    alLookup pid (fetchDetails pr c pid).cache.details = some (fetchDetails pr c pid).val := by
  cases h : alLookup pid c.details with
  | some dt => rw [fetchDetails_eq_hit h]; exact h
  | none =>
    rw [fetchDetails_eq_miss h]
    exact alLookup_alInsert_absent _ _ _ h

theorem fetchDetails_replay (pr : Provider) (c : Cache) (pid : String) (c'' : Cache)
    (h : subC (fetchDetails pr c pid).cache c'') :
    fetchDetails pr c'' pid = ⟨(fetchDetails pr c pid).val, c'', 0⟩ :=
  fetchDetails_eq_hit (h.2.1 _ _ (fetchDetails_cached pr c pid))

theorem cachedCrawl_eq_hit {pr : Provider} {c : Cache} {dm : String} {cs : CrawlSummary}
    (h : alLookup dm c.crawls = some cs) : cachedCrawl pr c dm = ⟨cs, c, 0⟩ := by
  unfold cachedCrawl
  simp only [h]

theorem cachedCrawl_eq_miss {pr : Provider} {c : Cache} {dm : String}
    (h : alLookup dm c.crawls = none) :
    cachedCrawl pr c dm =
      ⟨pr.site dm, { c with crawls := alInsert dm (pr.site dm) c.crawls },
       (pr.site dm).attempts⟩ := by
  unfold cachedCrawl
  simp only [h]

theorem cachedCrawl_mono (pr : Provider) (c : Cache) (dm : String) :
    subC c (cachedCrawl pr c dm).cache := by
  cases h : alLookup dm c.crawls with
  | some cs => rw [cachedCrawl_eq_hit h]; exact subC_refl c
  | none =>
    rw [cachedCrawl_eq_miss h]
    exact ⟨fun _ _ hv => hv, fun _ _ hv => hv,
           fun _ _ hv => alLookup_alInsert_preserve _ _ _ _ _ hv⟩

theorem cachedCrawl_cached (pr : Provider) (c : Cache) (dm : String) :
    alLookup dm (cachedCrawl pr c dm).cache.crawls = some (cachedCrawl pr c dm).val := by
  cases h : alLookup dm c.crawls with
  | some cs => rw [cachedCrawl_eq_hit h]; exact h
  | none =>
    rw [cachedCrawl_eq_miss h]
    exact alLookup_alInsert_absent _ _ _ h

theorem cachedCrawl_replay (pr : Provider) (c : Cache) (dm : String) (c'' : Cache)
    (h : subC (cachedCrawl pr c dm).cache c'') :
    cachedCrawl pr c'' dm = ⟨(cachedCrawl pr c dm).val, c'', 0⟩ :=
  cachedCrawl_eq_hit (h.2.2 _ _ (cachedCrawl_cached pr c dm))

theorem enrichPlace_eq_off (pr : Provider) (c : Cache) (pid : String) :
    enrichPlace pr false c pid =
      ⟨mkLead pid (fetchDetails pr c pid).val
        ((fetchDetails pr c pid).val.website.bind normalizeDomain) [],
       (fetchDetails pr c pid).cache, (fetchDetails pr c pid).calls⟩ := by
  unfold enrichPlace
  simp only [Bool.false_eq_true, if_false]

theorem enrichPlace_eq_nodom {pr : Provider} {c : Cache} {pid : String}
    (h : (fetchDetails pr c pid).val.website.bind normalizeDomain = none) :
    enrichPlace pr true c pid =
      ⟨mkLead pid (fetchDetails pr c pid).val none [],
       (fetchDetails pr c pid).cache, (fetchDetails pr c pid).calls⟩ := by
  unfold enrichPlace
  simp only [if_true, h]

theorem enrichPlace_eq_crawl {pr : Provider} {c : Cache} {pid : String} {dm : String}
    (h : (fetchDetails pr c pid).val.website.bind normalizeDomain = some dm) :
    enrichPlace pr true c pid =
      ⟨mkLead pid (fetchDetails pr c pid).val (some dm)
        (cachedCrawl pr (fetchDetails pr c pid).cache dm).val.emails,
       (cachedCrawl pr (fetchDetails pr c pid).cache dm).cache,
       (fetchDetails pr c pid).calls +
         (cachedCrawl pr (fetchDetails pr c pid).cache dm).calls⟩ := by
  unfold enrichPlace
  simp only [if_true, h]

theorem enrichPlace_mono (pr : Provider) (cw : Bool) (c : Cache) (pid : String) :
    subC c (enrichPlace pr cw c pid).cache := by
  cases cw with
  | false =>
    rw [enrichPlace_eq_off]
    exact fetchDetails_mono pr c pid
  | true =>
    cases hdom : (fetchDetails pr c pid).val.website.bind normalizeDomain with
    | none =>
      rw [enrichPlace_eq_nodom hdom]
      exact fetchDetails_mono pr c pid
    | some dm =>
      rw [enrichPlace_eq_crawl hdom]
      exact subC_trans (fetchDetails_mono pr c pid)
        (cachedCrawl_mono pr (fetchDetails pr c pid).cache dm)

theorem enrichPlace_replay (pr : Provider) (cw : Bool) (c : Cache) (pid : String)
    (c'' : Cache) (h : subC (enrichPlace pr cw c pid).cache c'') :
    enrichPlace pr cw c'' pid = ⟨(enrichPlace pr cw c pid).val, c'', 0⟩ := by
  cases cw with
  | false =>
    rw [enrichPlace_eq_off] at h
    have hfdr := fetchDetails_replay pr c pid c'' h
    rw [enrichPlace_eq_off pr c'' pid, enrichPlace_eq_off pr c pid, hfdr]
  | true =>
    cases hdom : (fetchDetails pr c pid).val.website.bind normalizeDomain with
    | none =>
      rw [enrichPlace_eq_nodom hdom] at h
      have hfdr := fetchDetails_replay pr c pid c'' h
      have hdom'' : (fetchDetails pr c'' pid).val.website.bind normalizeDomain = none := by
        rw [hfdr]
        exact hdom
      rw [enrichPlace_eq_nodom hdom'', enrichPlace_eq_nodom hdom, hfdr]
    | some dm =>
      rw [enrichPlace_eq_crawl hdom] at h
      have hfd : subC (fetchDetails pr c pid).cache c'' :=
        subC_trans (cachedCrawl_mono pr (fetchDetails pr c pid).cache dm) h
      have hfdr := fetchDetails_replay pr c pid c'' hfd
      have hdom'' : (fetchDetails pr c'' pid).val.website.bind normalizeDomain = some dm := by
        rw [hfdr]
        exact hdom
      have hccr := cachedCrawl_replay pr (fetchDetails pr c pid).cache dm c'' h
      rw [enrichPlace_eq_crawl hdom'', enrichPlace_eq_crawl hdom, hfdr, hccr]
      rfl

theorem enrichAll_mono (pr : Provider) (cw : Bool) :
    ∀ (pids : List String) (c : Cache), subC c (enrichAll pr cw pids c).cache
  | [], c => subC_refl c
  | pid :: rest, c =>
    subC_trans (enrichPlace_mono pr cw c pid)
      (enrichAll_mono pr cw rest (enrichPlace pr cw c pid).cache)

theorem enrichAll_replay (pr : Provider) (cw : Bool) :
    ∀ (pids : List String) (c c'' : Cache),
      subC (enrichAll pr cw pids c).cache c'' →
      enrichAll pr cw pids c'' = ⟨(enrichAll pr cw pids c).cands, c'', 0⟩ := by
  intro pids
  induction pids with
  | nil =>
    intro c c'' h
    rfl
  | cons pid rest ih =>
    intro c c'' h
    have hsub1 : subC (enrichPlace pr cw c pid).cache c'' := by
      refine subC_trans ?_ h
      exact enrichAll_mono pr cw rest (enrichPlace pr cw c pid).cache
    have hep := enrichPlace_replay pr cw c pid c'' hsub1
    have hrest := ih (enrichPlace pr cw c pid).cache c'' h
    show (let r1 := enrichPlace pr cw c'' pid
          let r := enrichAll pr cw rest r1.cache
          (⟨r1.val :: r.cands, r.cache, r1.calls + r.calls⟩ : EnrichOut)) = _
    rw [hep]
    show (⟨(enrichPlace pr cw c pid).val :: (enrichAll pr cw rest c'').cands,
          (enrichAll pr cw rest c'').cache, 0 + (enrichAll pr cw rest c'').calls⟩ : EnrichOut) = _
    rw [hrest]
    rfl

/-- Replay: on any cache extending a finished run's cache, the whole
per-pair pipeline returns the same output and candidates, touches
nothing, and issues zero network calls. -/
theorem runPair_replay (pr : Provider) (cfg : Config) (q l : String) (c c'' : Cache)
    (h : subC (runPair pr cfg q l c).cache c'') :
    (runPair pr cfg q l c'').out = (runPair pr cfg q l c).out ∧
    (runPair pr cfg q l c'').cands = (runPair pr cfg q l c).cands ∧
    (runPair pr cfg q l c'').cache = c'' ∧
    (runPair pr cfg q l c'').calls = 0 := by
  simp only [runPair, searchText] at h ⊢
  have hsub : subC (searchLoop pr q l settlingDelayMs cfg.maxPages 0 cfg.maxResults c).cache c'' :=
    subC_trans (enrichAll_mono pr cfg.crawlOn _ _) h
  have hs := searchLoop_replay pr q l settlingDelayMs cfg.maxPages 0 cfg.maxResults c c'' hsub
  rw [hs.1, hs.2.1, hs.2.2]
  have he := enrichAll_replay pr cfg.crawlOn
    ((collectPids (searchLoop pr q l settlingDelayMs cfg.maxPages 0 cfg.maxResults c).pages).take cfg.maxResults)
    (searchLoop pr q l settlingDelayMs cfg.maxPages 0 cfg.maxResults c).cache c'' h
  rw [he]
  exact ⟨rfl, rfl, rfl, rfl⟩

/-- C1: re-running the pipeline on an identical query/location pair with
the warm cache left by a completed first run issues zero network calls,
leaves the cache unchanged, and produces exactly the first run's output
set — for any initial cache the first run started from. -/
theorem warm_cache_idempotent (pr : Provider) (cfg : Config) (q l : String) (c : Cache) :
    (runPair pr cfg q l (runPair pr cfg q l c).cache).out = (runPair pr cfg q l c).out ∧
    (runPair pr cfg q l (runPair pr cfg q l c).cache).calls = 0 ∧
    (runPair pr cfg q l (runPair pr cfg q l c).cache).cache = (runPair pr cfg q l c).cache := by
  have h := runPair_replay pr cfg q l c (runPair pr cfg q l c).cache
    (subC_refl (runPair pr cfg q l c).cache)
  exact ⟨h.1, h.2.2.2, h.2.2.1⟩

/-! ### Run orchestration, configuration validation and resume
(claims C3 and C8) -/

/-- Modelled from the spec: reconstruct a pair's search pages from the
cache only, issuing no network call (the resume short-circuit of spec
section 4.2). -/
def reconPages (c : Cache) (q l : String) : Nat → Nat → Nat → List Page
  | 0, _, _ => []
  | fuel + 1, i, need =>
    match alLookup (q, l, i) c.pages with
    | none => []
    | some p =>
      if p.hasNext = true ∧ p.placeIds.length < need then
        p :: reconPages c q l fuel (i + 1) (need - p.placeIds.length)
      else [p]

/-- Reconstruct one enriched place from the cache only. -/
def reconPlace (cw : Bool) (c : Cache) (pid : String) : Option Lead :=
  match alLookup pid c.details with
  | none => none
  | some dt =>
    match cw, dt.website.bind normalizeDomain with
    | true, some dm =>
      match alLookup dm c.crawls with
      | none => none
      | some cs => some (mkLead pid dt (some dm) cs.emails)
    | true, none => some (mkLead pid dt none [])
    | false, dom => some (mkLead pid dt dom [])

/-- Reconstruct every place of a pid list from the cache. -/
def reconAllPids (cw : Bool) (c : Cache) : List String → List Lead
  | [] => []
  | pid :: rest =>
    match reconPlace cw c pid with
    | some L => L :: reconAllPids cw c rest
    | none => reconAllPids cw c rest

/-- Modelled from the spec: reconstruct a DONE pair's candidate stream
purely from the cache (zero network calls by construction). -/
def reconPair (cfg : Config) (q l : String) (c : Cache) : List Lead :=
  reconAllPids cfg.crawlOn c
    ((collectPids (reconPages c q l cfg.maxPages 0 cfg.maxResults)).take cfg.maxResults)

/-- Result of a whole run: the dedup accumulator, the progress ledger
(pairs recorded DONE, in order), the cache, and the per-pair network
call counts. -/
structure AllOut where
  acc : DedupState
  prog : List (String × String)
  cache : Cache
  perPair : List Nat
deriving Repr

/-- Modelled from the spec: the run orchestrator.  Each query/location
pair is processed in order; with `--resume`, a pair recorded DONE in
the progress ledger is short-circuited to a cache-only reconstruction
(zero network calls); otherwise the pair runs through the full pipeline
and is recorded DONE.  Every pair's candidates fold into the one run
accumulator. -/
def runAll (pr : Provider) (cfg : Config) (resume : Bool) :
    List (String × String) → List (String × String) → Cache → DedupState →
      List Nat → AllOut
  | [], prog, c, acc, calls => ⟨acc, prog, c, calls⟩
  | (q, l) :: rest, prog, c, acc, calls =>
    if resume = true ∧ (q, l) ∈ prog then
      runAll pr cfg resume rest prog c (foldAll acc (reconPair cfg q l c)) (calls ++ [0])
    else
      runAll pr cfg resume rest (prog ++ [(q, l)]) (runPair pr cfg q l c).cache
        (foldAll acc (runPair pr cfg q l c).cands) (calls ++ [(runPair pr cfg q l c).calls])

/-- Modelled from the spec: configuration validation — `max-pages`
within [1,3] and `qps` strictly positive. -/
def validConfig (cfg : Config) : Bool :=
  decide (1 ≤ cfg.maxPages) && decide (cfg.maxPages ≤ 3) && decide (0 < cfg.qps)

/-- Modelled from the spec: the engine entry point validates the
configuration before touching the network; an invalid configuration is
a fatal error raised before any call. -/
def runEngine (pr : Provider) (cfg : Config) (resume : Bool)
    (pairs prog : List (String × String)) (c : Cache) : Except String AllOut :=
  if validConfig cfg = true then
    Except.ok (runAll pr cfg resume pairs prog c dedupInit [])
  else Except.error "invalid configuration"

/-- Total network calls of an engine run (zero when it aborted). -/
def engineCalls : Except String AllOut → Nat
  | Except.error _ => 0
  | Except.ok r => r.perPair.foldl (fun a b => a + b) 0

/-- C8: a configuration with `max-pages` outside [1,3] or `qps ≤ 0` is
rejected as a fatal configuration error before any network call is
issued. -/
theorem config_rejected (pr : Provider) (cfg : Config) (resume : Bool)
    (pairs prog : List (String × String)) (c : Cache)
    (h : cfg.maxPages < 1 ∨ 3 < cfg.maxPages ∨ cfg.qps ≤ 0) :
    runEngine pr cfg resume pairs prog c = Except.error "invalid configuration" ∧
    engineCalls (runEngine pr cfg resume pairs prog c) = 0 := by
  have hv : validConfig cfg = false := by
    unfold validConfig
    rcases h with h | h | h
    · have hd : decide (1 ≤ cfg.maxPages) = false := by
        simp only [decide_eq_false_iff_not]
        omega
      simp [hd]
    · have hd : decide (cfg.maxPages ≤ 3) = false := by
        simp only [decide_eq_false_iff_not]
        omega
      simp [hd]
    · have hd : decide (0 < cfg.qps) = false := by
        simp only [decide_eq_false_iff_not]
        omega
      simp [hd]
  unfold runEngine
  rw [hv]
  exact ⟨by simp, by simp [engineCalls]⟩

/-- Witness for C8 at a concrete configuration with `max-pages = 5`. -/
theorem config_rejected_witness :
    runEngine
      ⟨fun _ _ _ => ⟨[], false⟩, fun _ => ⟨"", none, none, []⟩, fun _ => ⟨[], 0⟩⟩
      ⟨5, 100, 200, 10, true⟩ false [("plumbers", "Austin, TX")] [] emptyCache =
      Except.error "invalid configuration" ∧
    engineCalls (runEngine
      ⟨fun _ _ _ => ⟨[], false⟩, fun _ => ⟨"", none, none, []⟩, fun _ => ⟨[], 0⟩⟩
      ⟨5, 100, 200, 10, true⟩ false [("plumbers", "Austin, TX")] [] emptyCache) = 0 :=
  config_rejected
    ⟨fun _ _ _ => ⟨[], false⟩, fun _ => ⟨"", none, none, []⟩, fun _ => ⟨[], 0⟩⟩
    ⟨5, 100, 200, 10, true⟩ false [("plumbers", "Austin, TX")] [] emptyCache
    (Or.inr (Or.inl (by decide)))

/-- Every cache entry equals the deterministic provider's answer for
its key.  The empty cache is coherent and all pipeline writes preserve
coherence, since the pipeline only ever stores provider answers. -/
def Coherent (pr : Provider) (c : Cache) : Prop :=
  (∀ q l i p, alLookup (q, l, i) c.pages = some p → p = pr.page q l i) ∧
  (∀ pid dt, alLookup pid c.details = some dt → dt = pr.detail pid) ∧
  (∀ dm cs, alLookup dm c.crawls = some cs → cs = pr.site dm)

theorem Coherent_empty (pr : Provider) : Coherent pr emptyCache := by
  refine ⟨?_, ?_, ?_⟩
  · intro q l i p h
    simp [emptyCache, alLookup] at h
  · intro pid dt h
    simp [emptyCache, alLookup] at h
  · intro dm cs h
    simp [emptyCache, alLookup] at h

theorem alLookup_alInsert_cases {κ α : Type} [DecidableEq κ]
    {k k' : κ} {v v' : α} {m : List (κ × α)}
    (h : alLookup k' (alInsert k v m) = some v') :
    (k' = k ∧ v' = v) ∨ alLookup k' m = some v' := by
  unfold alInsert at h
  cases hm : alLookup k m with
  | some w => rw [hm] at h; exact Or.inr h
  | none =>
    rw [hm] at h
    simp only [alLookup] at h
    by_cases hk : k = k'
    · subst hk
      simp at h
      exact Or.inl ⟨rfl, h.symm⟩
    · simp [hk] at h
      exact Or.inr h

theorem Coherent_putPage (pr : Provider) (q l : String) (i : Nat) (c : Cache)
    (h : Coherent pr c) : Coherent pr (putPage q l i (pr.page q l i) c) := by
  refine ⟨?_, h.2.1, h.2.2⟩
  intro q' l' i' p hp
  rcases alLookup_alInsert_cases hp with ⟨hk, hv⟩ | hp'
  · have hq : q' = q := by simpa using congrArg Prod.fst hk
    have hl : l' = l := by simpa using congrArg (fun x => x.2.1) hk
    have hi : i' = i := by simpa using congrArg (fun x => x.2.2) hk
    subst hq; subst hl; subst hi
    exact hv
  · exact h.1 q' l' i' p hp'

theorem Coherent_putDetail (pr : Provider) (pid : String) (c : Cache)
    (h : Coherent pr c) :
    Coherent pr { c with details := alInsert pid (pr.detail pid) c.details } := by
  refine ⟨h.1, ?_, h.2.2⟩
  intro pid' dt hp
  rcases alLookup_alInsert_cases hp with ⟨hk, hv⟩ | hp'
  · subst hk; exact hv
  · exact h.2.1 pid' dt hp'

theorem Coherent_putCrawl (pr : Provider) (dm : String) (c : Cache)
    (h : Coherent pr c) :
    Coherent pr { c with crawls := alInsert dm (pr.site dm) c.crawls } := by
  refine ⟨h.1, h.2.1, ?_⟩
  intro dm' cs hp
  rcases alLookup_alInsert_cases hp with ⟨hk, hv⟩ | hp'
  · subst hk; exact hv
  · exact h.2.2 dm' cs hp'

/-- The canonical page sequence of a pair: what pagination returns when
every answer comes from the deterministic provider. -/
def purePages (pr : Provider) (q l : String) : Nat → Nat → Nat → List Page
  | 0, _, _ => []
  | fuel + 1, i, need =>
    if (pr.page q l i).hasNext = true ∧ (pr.page q l i).placeIds.length < need then
      pr.page q l i ::
        purePages pr q l fuel (i + 1) (need - (pr.page q l i).placeIds.length)
    else [pr.page q l i]

/-- The canonical enriched lead of one place. -/
def pureLead (pr : Provider) (cw : Bool) (pid : String) : Lead :=
  match cw, (pr.detail pid).website.bind normalizeDomain with
  | true, some dm => mkLead pid (pr.detail pid) (some dm) (pr.site dm).emails
  | true, none => mkLead pid (pr.detail pid) none []
  | false, dom => mkLead pid (pr.detail pid) dom []

/-- The canonical raw place candidates of a pair. -/
def purePids (pr : Provider) (cfg : Config) (q l : String) : List String :=
  (collectPids (purePages pr q l cfg.maxPages 0 cfg.maxResults)).take cfg.maxResults

/-- The canonical candidate stream of a pair. -/
def pureCands (pr : Provider) (cfg : Config) (q l : String) : List Lead :=
  (purePids pr cfg q l).map (pureLead pr cfg.crawlOn)

theorem searchLoop_coherent (pr : Provider) (q l : String) (d : Nat) :
    ∀ (fuel i need : Nat) (c : Cache), Coherent pr c →
      (searchLoop pr q l d fuel i need c).pages = purePages pr q l fuel i need ∧
      Coherent pr (searchLoop pr q l d fuel i need c).cache := by
  intro fuel
  induction fuel with
  | zero => intro i need c h; exact ⟨rfl, h⟩
  | succ fuel ih =>
    intro i need c h
    cases hlk : alLookup (q, l, i) c.pages with
    | some p =>
      have hcan : p = pr.page q l i := h.1 q l i p hlk
      by_cases hc : p.hasNext = true ∧ p.placeIds.length < need
      · rw [searchLoop_eq_hit_cont hlk hc]
        have hrec := ih (i + 1) (need - p.placeIds.length) c h
        constructor
        · show p :: _ = purePages pr q l (fuel + 1) i need
          rw [purePages, ← hcan, if_pos hc, hrec.1]
        · exact hrec.2
      · rw [searchLoop_eq_hit_stop hlk hc]
        refine ⟨?_, h⟩
        show [p] = purePages pr q l (fuel + 1) i need
        rw [purePages, ← hcan, if_neg hc]
    | none =>
      by_cases hc : (pr.page q l i).hasNext = true ∧ (pr.page q l i).placeIds.length < need
      · rw [searchLoop_eq_miss_cont hlk hc]
        have hrec := ih (i + 1) (need - (pr.page q l i).placeIds.length)
          (putPage q l i (pr.page q l i) c) (Coherent_putPage pr q l i c h)
        constructor
        · show pr.page q l i :: _ = purePages pr q l (fuel + 1) i need
          rw [purePages, if_pos hc, hrec.1]
        · exact hrec.2
      · rw [searchLoop_eq_miss_stop hlk hc]
        constructor
        · show [pr.page q l i] = purePages pr q l (fuel + 1) i need
          rw [purePages, if_neg hc]
        · exact Coherent_putPage pr q l i c h

theorem fetchDetails_coherent (pr : Provider) (c : Cache) (pid : String)
    (h : Coherent pr c) :
    (fetchDetails pr c pid).val = pr.detail pid ∧
    Coherent pr (fetchDetails pr c pid).cache := by
  cases hlk : alLookup pid c.details with
  | some dt =>
    rw [fetchDetails_eq_hit hlk]
    exact ⟨h.2.1 pid dt hlk, h⟩
  | none =>
    rw [fetchDetails_eq_miss hlk]
    exact ⟨rfl, Coherent_putDetail pr pid c h⟩

theorem cachedCrawl_coherent (pr : Provider) (c : Cache) (dm : String)
    (h : Coherent pr c) :
    (cachedCrawl pr c dm).val = pr.site dm ∧
    Coherent pr (cachedCrawl pr c dm).cache := by
  cases hlk : alLookup dm c.crawls with
  | some cs =>
    rw [cachedCrawl_eq_hit hlk]
    exact ⟨h.2.2 dm cs hlk, h⟩
  | none =>
    rw [cachedCrawl_eq_miss hlk]
    exact ⟨rfl, Coherent_putCrawl pr dm c h⟩

theorem enrichPlace_coherent (pr : Provider) (cw : Bool) (c : Cache) (pid : String)
    (h : Coherent pr c) :
    (enrichPlace pr cw c pid).val = pureLead pr cw pid ∧
    Coherent pr (enrichPlace pr cw c pid).cache := by
  have hfd := fetchDetails_coherent pr c pid h
  cases cw with
  | false =>
    rw [enrichPlace_eq_off]
    refine ⟨?_, hfd.2⟩
    show mkLead pid (fetchDetails pr c pid).val
      ((fetchDetails pr c pid).val.website.bind normalizeDomain) [] = pureLead pr false pid
    rw [hfd.1]
    rfl
  | true =>
    cases hdom : (fetchDetails pr c pid).val.website.bind normalizeDomain with
    | none =>
      rw [enrichPlace_eq_nodom hdom]
      have hdomc : (pr.detail pid).website.bind normalizeDomain = none := by
        rw [← hfd.1]; exact hdom
      refine ⟨?_, hfd.2⟩
      show mkLead pid (fetchDetails pr c pid).val none [] = pureLead pr true pid
      rw [hfd.1]
      unfold pureLead
      rw [hdomc]
    | some dm =>
      rw [enrichPlace_eq_crawl hdom]
      have hdomc : (pr.detail pid).website.bind normalizeDomain = some dm := by
        rw [← hfd.1]; exact hdom
      have hcc := cachedCrawl_coherent pr (fetchDetails pr c pid).cache dm hfd.2
      refine ⟨?_, hcc.2⟩
      show mkLead pid (fetchDetails pr c pid).val (some dm)
        (cachedCrawl pr (fetchDetails pr c pid).cache dm).val.emails = pureLead pr true pid
      rw [hfd.1, hcc.1]
      unfold pureLead
      rw [hdomc]

theorem enrichAll_coherent (pr : Provider) (cw : Bool) :
    ∀ (pids : List String) (c : Cache), Coherent pr c →
      (enrichAll pr cw pids c).cands = pids.map (pureLead pr cw) ∧
      Coherent pr (enrichAll pr cw pids c).cache := by
  intro pids
  induction pids with
  | nil => intro c h; exact ⟨rfl, h⟩
  | cons pid rest ih =>
    intro c h
    have hep := enrichPlace_coherent pr cw c pid h
    have hrec := ih (enrichPlace pr cw c pid).cache hep.2
    constructor
    · show (enrichPlace pr cw c pid).val :: (enrichAll pr cw rest (enrichPlace pr cw c pid).cache).cands = _
      rw [hep.1, hrec.1]
      rfl
    · exact hrec.2

theorem runPair_coherent (pr : Provider) (cfg : Config) (q l : String) (c : Cache)
    (h : Coherent pr c) :
    (runPair pr cfg q l c).cands = pureCands pr cfg q l ∧
    Coherent pr (runPair pr cfg q l c).cache := by
  simp only [runPair, searchText]
  have hs := searchLoop_coherent pr q l settlingDelayMs cfg.maxPages 0 cfg.maxResults c h
  have he := enrichAll_coherent pr cfg.crawlOn
    ((collectPids (searchLoop pr q l settlingDelayMs cfg.maxPages 0 cfg.maxResults c).pages).take cfg.maxResults)
    (searchLoop pr q l settlingDelayMs cfg.maxPages 0 cfg.maxResults c).cache hs.2
  refine ⟨?_, he.2⟩
  rw [he.1, hs.1]
  rfl

theorem subC_pages_isSome {c c' : Cache} (h : subC c c') {k : String × String × Nat}
    (hk : (alLookup k c.pages).isSome) : (alLookup k c'.pages).isSome := by
  rcases Option.isSome_iff_exists.mp hk with ⟨v, hv⟩
  rw [h.1 k v hv]
  rfl

theorem subC_details_isSome {c c' : Cache} (h : subC c c') {k : String}
    (hk : (alLookup k c.details).isSome) : (alLookup k c'.details).isSome := by
  rcases Option.isSome_iff_exists.mp hk with ⟨v, hv⟩
  rw [h.2.1 k v hv]
  rfl

theorem subC_crawls_isSome {c c' : Cache} (h : subC c c') {k : String}
    (hk : (alLookup k c.crawls).isSome) : (alLookup k c'.crawls).isSome := by
  rcases Option.isSome_iff_exists.mp hk with ⟨v, hv⟩
  rw [h.2.2 k v hv]
  rfl

/-- Every cache key a fresh run of this pair would touch is present:
all canonical search pages, the detail of every canonical candidate,
and (when crawling) the crawl result of every candidate's domain. -/
def PairCached (pr : Provider) (cfg : Config) (q l : String) (c : Cache) : Prop :=
  (∀ j, j < (purePages pr q l cfg.maxPages 0 cfg.maxResults).length →
    (alLookup (q, l, j) c.pages).isSome) ∧
  (∀ pid ∈ purePids pr cfg q l,
    (alLookup pid c.details).isSome ∧
    (cfg.crawlOn = true → ∀ dm,
      (pr.detail pid).website.bind normalizeDomain = some dm →
      (alLookup dm c.crawls).isSome))

theorem PairCached_mono {pr : Provider} {cfg : Config} {q l : String} {c c' : Cache}
    (h : PairCached pr cfg q l c) (hs : subC c c') : PairCached pr cfg q l c' := by
  refine ⟨fun j hj => subC_pages_isSome hs (h.1 j hj), fun pid hpid => ?_⟩
  refine ⟨subC_details_isSome hs (h.2 pid hpid).1, fun hcw dm hdm => ?_⟩
  exact subC_crawls_isSome hs ((h.2 pid hpid).2 hcw dm hdm)

theorem purePages_length_pos (pr : Provider) (q l : String) (fuel i need : Nat) :
    0 < (purePages pr q l (fuel + 1) i need).length := by
  rw [purePages]
  by_cases hc : (pr.page q l i).hasNext = true ∧ (pr.page q l i).placeIds.length < need
  · rw [if_pos hc]; simp
  · rw [if_neg hc]; simp

theorem searchLoop_pages_cached (pr : Provider) (q l : String) (d : Nat) :
    ∀ (fuel i need : Nat) (c : Cache), Coherent pr c →
      ∀ j, j < (purePages pr q l fuel i need).length →
        (alLookup (q, l, i + j) (searchLoop pr q l d fuel i need c).cache.pages).isSome := by
  intro fuel
  induction fuel with
  | zero =>
    intro i need c h j hj
    simp [purePages] at hj
  | succ fuel ih =>
    intro i need c h j hj
    cases hlk : alLookup (q, l, i) c.pages with
    | some p =>
      have hcan : p = pr.page q l i := h.1 q l i p hlk
      by_cases hc : p.hasNext = true ∧ p.placeIds.length < need
      · rw [searchLoop_eq_hit_cont hlk hc]
        cases j with
        | zero =>
          refine subC_pages_isSome
            (searchLoop_mono pr q l d fuel (i + 1) (need - p.placeIds.length) c) ?_
          simp [hlk]
        | succ j' =>
          have hpl : purePages pr q l (fuel + 1) i need =
              pr.page q l i ::
                purePages pr q l fuel (i + 1) (need - (pr.page q l i).placeIds.length) := by
            rw [purePages, if_pos (by rw [← hcan]; exact hc)]
          rw [hpl] at hj
          have hj' : j' < (purePages pr q l fuel (i + 1)
              (need - (pr.page q l i).placeIds.length)).length := by
            simpa using Nat.lt_of_succ_lt_succ (by simpa using hj)
          have hkey : i + (j' + 1) = (i + 1) + j' := by omega
          rw [hkey]
          have := ih (i + 1) (need - p.placeIds.length) c h j' (by rw [hcan]; exact hj')
          exact this
      · rw [searchLoop_eq_hit_stop hlk hc]
        have hpl : purePages pr q l (fuel + 1) i need = [pr.page q l i] := by
          rw [purePages, if_neg (by rw [← hcan]; exact hc)]
        rw [hpl] at hj
        have hj0 : j = 0 := by simpa using Nat.lt_one_iff.mp (by simpa using hj)
        subst hj0
        simp [hlk]
    | none =>
      by_cases hc : (pr.page q l i).hasNext = true ∧ (pr.page q l i).placeIds.length < need
      · rw [searchLoop_eq_miss_cont hlk hc]
        cases j with
        | zero =>
          refine subC_pages_isSome
            (searchLoop_mono pr q l d fuel (i + 1)
              (need - (pr.page q l i).placeIds.length) (putPage q l i (pr.page q l i) c)) ?_
          simp [putPage_cached q l i (pr.page q l i) c hlk]
        | succ j' =>
          have hpl : purePages pr q l (fuel + 1) i need =
              pr.page q l i ::
                purePages pr q l fuel (i + 1) (need - (pr.page q l i).placeIds.length) := by
            rw [purePages, if_pos hc]
          rw [hpl] at hj
          have hj' : j' < (purePages pr q l fuel (i + 1)
              (need - (pr.page q l i).placeIds.length)).length := by
            simpa using Nat.lt_of_succ_lt_succ (by simpa using hj)
          have hkey : i + (j' + 1) = (i + 1) + j' := by omega
          rw [hkey]
          exact ih (i + 1) (need - (pr.page q l i).placeIds.length)
            (putPage q l i (pr.page q l i) c) (Coherent_putPage pr q l i c h) j' hj'
      · rw [searchLoop_eq_miss_stop hlk hc]
        have hpl : purePages pr q l (fuel + 1) i need = [pr.page q l i] := by
          rw [purePages, if_neg hc]
        rw [hpl] at hj
        have hj0 : j = 0 := by simpa using Nat.lt_one_iff.mp (by simpa using hj)
        subst hj0
        simp [putPage_cached q l i (pr.page q l i) c hlk]

theorem enrichPlace_keys_cached (pr : Provider) (cw : Bool) (c : Cache) (pid : String)
    (h : Coherent pr c) :
    (alLookup pid (enrichPlace pr cw c pid).cache.details).isSome ∧
    (cw = true → ∀ dm, (pr.detail pid).website.bind normalizeDomain = some dm →
      (alLookup dm (enrichPlace pr cw c pid).cache.crawls).isSome) := by
  have hfd := fetchDetails_coherent pr c pid h
  cases cw with
  | false =>
    rw [enrichPlace_eq_off]
    refine ⟨by simp [fetchDetails_cached pr c pid], ?_⟩
    intro hcw
    exact absurd hcw (by simp)
  | true =>
    cases hdom : (fetchDetails pr c pid).val.website.bind normalizeDomain with
    | none =>
      rw [enrichPlace_eq_nodom hdom]
      refine ⟨by simp [fetchDetails_cached pr c pid], ?_⟩
      intro _ dm hdm
      rw [← hfd.1] at hdm
      rw [hdom] at hdm
      exact absurd hdm (by simp)
    | some dm0 =>
      rw [enrichPlace_eq_crawl hdom]
      constructor
      · refine subC_details_isSome (cachedCrawl_mono pr (fetchDetails pr c pid).cache dm0) ?_
        simp [fetchDetails_cached pr c pid]
      · intro _ dm hdm
        rw [← hfd.1, hdom] at hdm
        have hdm0 : dm0 = dm := by simpa using hdm
        subst hdm0
        simp [cachedCrawl_cached pr (fetchDetails pr c pid).cache dm0]

theorem enrichAll_keys_cached (pr : Provider) (cw : Bool) :
    ∀ (pids : List String) (c : Cache), Coherent pr c →
      ∀ pid ∈ pids,
        (alLookup pid (enrichAll pr cw pids c).cache.details).isSome ∧
        (cw = true → ∀ dm, (pr.detail pid).website.bind normalizeDomain = some dm →
          (alLookup dm (enrichAll pr cw pids c).cache.crawls).isSome) := by
  intro pids
  induction pids with
  | nil => intro c h pid hpid; simp at hpid
  | cons p0 rest ih =>
    intro c h pid hpid
    have hep := enrichPlace_coherent pr cw c p0 h
    have hsub : subC (enrichPlace pr cw c p0).cache
        (enrichAll pr cw rest (enrichPlace pr cw c p0).cache).cache :=
      enrichAll_mono pr cw rest (enrichPlace pr cw c p0).cache
    rcases List.mem_cons.mp hpid with hpid | hpid
    · subst hpid
      have hk := enrichPlace_keys_cached pr cw c pid h
      exact ⟨subC_details_isSome hsub hk.1,
             fun hcw dm hdm => subC_crawls_isSome hsub (hk.2 hcw dm hdm)⟩
    · exact ih (enrichPlace pr cw c p0).cache hep.2 pid hpid

theorem runPair_mono (pr : Provider) (cfg : Config) (q l : String) (c : Cache) :
    subC c (runPair pr cfg q l c).cache := by
  simp only [runPair, searchText]
  exact subC_trans
    (searchLoop_mono pr q l settlingDelayMs cfg.maxPages 0 cfg.maxResults c)
    (enrichAll_mono pr cfg.crawlOn _ _)

theorem runPair_pairCached (pr : Provider) (cfg : Config) (q l : String) (c : Cache)
    (h : Coherent pr c) : PairCached pr cfg q l (runPair pr cfg q l c).cache := by
  simp only [runPair, searchText]
  have hs := searchLoop_coherent pr q l settlingDelayMs cfg.maxPages 0 cfg.maxResults c h
  constructor
  · intro j hj
    refine subC_pages_isSome (enrichAll_mono pr cfg.crawlOn _ _) ?_
    have := searchLoop_pages_cached pr q l settlingDelayMs cfg.maxPages 0 cfg.maxResults c h j hj
    simpa using this
  · intro pid hpid
    have hpids : (collectPids (searchLoop pr q l settlingDelayMs cfg.maxPages 0
        cfg.maxResults c).pages).take cfg.maxResults = purePids pr cfg q l := by
      rw [hs.1]
      rfl
    refine enrichAll_keys_cached pr cfg.crawlOn _ _ hs.2 pid ?_
    rw [hpids]
    exact hpid

theorem nth_append_add {α : Type} : ∀ (l l' : List α) (n : Nat),
    nth (l ++ l') (l.length + n) = nth l' n
  | [], l', n => by simp [nth]
  | a :: l, l', n => by
    show nth (a :: (l ++ l')) (l.length + 1 + n) = nth l' n
    have hidx : l.length + 1 + n = (l.length + n) + 1 := by omega
    rw [hidx]
    show nth (l ++ l') (l.length + n) = nth l' n
    exact nth_append_add l l' n

theorem nth_mem_take {α : Type} : ∀ (l : List α) (N j : Nat) (a : α),
    j < N → nth l j = some a → a ∈ l.take N
  | [], _, j, a, _, h => by simp [nth] at h
  | x :: l, 0, j, a, hj, _ => absurd hj (by simp)
  | x :: l, N + 1, 0, a, _, h => by
    simp [nth] at h
    subst h
    simp
  | x :: l, N + 1, j + 1, a, hj, h => by
    simp only [List.take]
    exact List.mem_cons_of_mem _ (nth_mem_take l N j a (Nat.lt_of_succ_lt_succ hj) h)

theorem reconPages_eq_pure (pr : Provider) (q l : String) (c : Cache)
    (hco : Coherent pr c) :
    ∀ (fuel i need : Nat),
      (∀ j, j < (purePages pr q l fuel i need).length →
        (alLookup (q, l, i + j) c.pages).isSome) →
      reconPages c q l fuel i need = purePages pr q l fuel i need := by
  intro fuel
  induction fuel with
  | zero => intro i need h; rfl
  | succ fuel ih =>
    intro i need h
    have h0 : (alLookup (q, l, i) c.pages).isSome := by
      have := h 0 (purePages_length_pos pr q l fuel i need)
      simpa using this
    rcases Option.isSome_iff_exists.mp h0 with ⟨p, hp⟩
    have hcan : p = pr.page q l i := hco.1 q l i p hp
    by_cases hc : p.hasNext = true ∧ p.placeIds.length < need
    · have hrec : reconPages c q l (fuel + 1) i need =
          p :: reconPages c q l fuel (i + 1) (need - p.placeIds.length) := by
        conv_lhs => rw [reconPages]
        simp only [hp]
        rw [if_pos hc]
      have hpl : purePages pr q l (fuel + 1) i need =
          pr.page q l i ::
            purePages pr q l fuel (i + 1) (need - (pr.page q l i).placeIds.length) := by
        rw [purePages, if_pos (by rw [← hcan]; exact hc)]
      rw [hrec, hpl, ← hcan]
      congr 1
      refine ih (i + 1) (need - p.placeIds.length) ?_
      intro j hj
      have hjlen : j + 1 < (purePages pr q l (fuel + 1) i need).length := by
        rw [hpl]
        simp only [List.length_cons]
        have hj2 : j < (purePages pr q l fuel (i + 1)
            (need - (pr.page q l i).placeIds.length)).length := by
          rw [← hcan]
          exact hj
        omega
      have hx := h (j + 1) hjlen
      have hkey : i + (j + 1) = (i + 1) + j := by omega
      rwa [hkey] at hx
    · have hrec : reconPages c q l (fuel + 1) i need = [p] := by
        conv_lhs => rw [reconPages]
        simp only [hp]
        rw [if_neg hc]
      rw [hrec, purePages, if_neg (by rw [← hcan]; exact hc), hcan]

theorem reconPlace_eq_pure (pr : Provider) (cw : Bool) (c : Cache) (pid : String)
    (hco : Coherent pr c)
    (hd : (alLookup pid c.details).isSome)
    (hcr : cw = true → ∀ dm, (pr.detail pid).website.bind normalizeDomain = some dm →
      (alLookup dm c.crawls).isSome) :
    reconPlace cw c pid = some (pureLead pr cw pid) := by
  rcases Option.isSome_iff_exists.mp hd with ⟨dt, hdt⟩
  have hdtc : dt = pr.detail pid := hco.2.1 pid dt hdt
  subst hdtc
  unfold reconPlace
  simp only [hdt]
  cases cw with
  | false =>
    cases hdom : (pr.detail pid).website.bind normalizeDomain with
    | none => simp only [pureLead, hdom]
    | some dm => simp only [pureLead, hdom]
  | true =>
    cases hdom : (pr.detail pid).website.bind normalizeDomain with
    | none => simp only [pureLead, hdom]
    | some dm =>
      simp only [hdom]
      have hcrs := hcr rfl dm hdom
      rcases Option.isSome_iff_exists.mp hcrs with ⟨cs, hcs⟩
      have hcsc : cs = pr.site dm := hco.2.2 dm cs hcs
      subst hcsc
      simp only [hcs, pureLead, hdom]

theorem reconAllPids_eq_map (cw : Bool) (c : Cache) :
    ∀ (pids : List String) (f : String → Lead),
      (∀ pid ∈ pids, reconPlace cw c pid = some (f pid)) →
      reconAllPids cw c pids = pids.map f := by
  intro pids f
  induction pids with
  | nil => intro _; rfl
  | cons p rest ih =>
    intro h
    have hp := h p (List.mem_cons_self _ _)
    conv_lhs => rw [reconAllPids]
    simp only [hp]
    rw [ih (fun pid hpid => h pid (List.mem_cons_of_mem _ hpid))]
    rfl

theorem pairCached_recon (pr : Provider) (cfg : Config) (q l : String) (c : Cache)
    (hco : Coherent pr c) (h : PairCached pr cfg q l c) :
    reconPair cfg q l c = pureCands pr cfg q l := by
  have hpp : reconPages c q l cfg.maxPages 0 cfg.maxResults =
      purePages pr q l cfg.maxPages 0 cfg.maxResults := by
    refine reconPages_eq_pure pr q l c hco cfg.maxPages 0 cfg.maxResults ?_
    intro j hj
    simpa using h.1 j hj
  unfold reconPair
  rw [hpp]
  refine reconAllPids_eq_map cfg.crawlOn c (purePids pr cfg q l)
    (pureLead pr cfg.crawlOn) ?_
  intro pid hpid
  exact reconPlace_eq_pure pr cfg.crawlOn c pid hco (h.2 pid hpid).1 (h.2 pid hpid).2

theorem runAll_eq_done {pr : Provider} {cfg : Config} {resume : Bool}
    {q l : String} {rest prog : List (String × String)} {c : Cache}
    {acc : DedupState} {calls : List Nat}
    (h : resume = true ∧ (q, l) ∈ prog) :
    runAll pr cfg resume ((q, l) :: rest) prog c acc calls =
      runAll pr cfg resume rest prog c (foldAll acc (reconPair cfg q l c))
        (calls ++ [0]) := by
  conv_lhs => rw [runAll]
  rw [if_pos h]

theorem runAll_eq_fresh {pr : Provider} {cfg : Config} {resume : Bool}
    {q l : String} {rest prog : List (String × String)} {c : Cache}
    {acc : DedupState} {calls : List Nat}
    (h : ¬ (resume = true ∧ (q, l) ∈ prog)) :
    runAll pr cfg resume ((q, l) :: rest) prog c acc calls =
      runAll pr cfg resume rest (prog ++ [(q, l)]) (runPair pr cfg q l c).cache
        (foldAll acc (runPair pr cfg q l c).cands)
        (calls ++ [(runPair pr cfg q l c).calls]) := by
  conv_lhs => rw [runAll]
  rw [if_neg h]

theorem runAll_coherent (pr : Provider) (cfg : Config) (resume : Bool) :
    ∀ (rest prog : List (String × String)) (c : Cache) (acc : DedupState)
      (calls : List Nat), Coherent pr c →
      Coherent pr (runAll pr cfg resume rest prog c acc calls).cache := by
  intro rest
  induction rest with
  | nil => intro prog c acc calls h; exact h
  | cons pq rest ih =>
    obtain ⟨q, l⟩ := pq
    intro prog c acc calls h
    by_cases hdone : resume = true ∧ (q, l) ∈ prog
    · rw [runAll_eq_done hdone]
      exact ih prog c _ _ h
    · rw [runAll_eq_fresh hdone]
      exact ih _ _ _ _ (runPair_coherent pr cfg q l c h).2

theorem runAll_false_prog (pr : Provider) (cfg : Config) :
    ∀ (rest prog : List (String × String)) (c : Cache) (acc : DedupState)
      (calls : List Nat),
      (runAll pr cfg false rest prog c acc calls).prog = prog ++ rest := by
  intro rest
  induction rest with
  | nil => intro prog c acc calls; simp [runAll]
  | cons pq rest ih =>
    obtain ⟨q, l⟩ := pq
    intro prog c acc calls
    rw [runAll_eq_fresh (by simp)]
    rw [ih]
    simp

theorem runAll_false_cached (pr : Provider) (cfg : Config) :
    ∀ (rest prog : List (String × String)) (c : Cache) (acc : DedupState)
      (calls : List Nat), Coherent pr c →
      (∀ pq ∈ prog, PairCached pr cfg pq.1 pq.2 c) →
      ∀ pq ∈ (runAll pr cfg false rest prog c acc calls).prog,
        PairCached pr cfg pq.1 pq.2 (runAll pr cfg false rest prog c acc calls).cache := by
  intro rest
  induction rest with
  | nil => intro prog c acc calls _ hprog pq hpq; exact hprog pq hpq
  | cons pq0 rest ih =>
    obtain ⟨q, l⟩ := pq0
    intro prog c acc calls h hprog pq hpq
    rw [runAll_eq_fresh (by simp)] at hpq ⊢
    refine ih _ _ _ _ (runPair_coherent pr cfg q l c h).2 ?_ pq hpq
    intro pq' hpq'
    rcases List.mem_append.mp hpq' with hpq' | hpq'
    · exact PairCached_mono (hprog pq' hpq') (runPair_mono pr cfg q l c)
    · have : pq' = (q, l) := by simpa using hpq'
      subst this
      exact runPair_pairCached pr cfg q l c h

theorem runAll_resume_acc (pr : Provider) (cfg : Config) :
    ∀ (rest prog_f prog_r : List (String × String)) (c_f c_r : Cache)
      (acc : DedupState) (calls_f calls_r : List Nat),
      Coherent pr c_f → Coherent pr c_r →
      (∀ pq ∈ prog_r, PairCached pr cfg pq.1 pq.2 c_r) →
      (runAll pr cfg true rest prog_r c_r acc calls_r).acc =
        (runAll pr cfg false rest prog_f c_f acc calls_f).acc := by
  intro rest
  induction rest with
  | nil => intro prog_f prog_r c_f c_r acc calls_f calls_r _ _ _; rfl
  | cons pq0 rest ih =>
    obtain ⟨q, l⟩ := pq0
    intro prog_f prog_r c_f c_r acc calls_f calls_r hcf hcr hpc
    rw [runAll_eq_fresh (show ¬ (false = true ∧ (q, l) ∈ prog_f) by simp)]
    rw [(runPair_coherent pr cfg q l c_f hcf).1]
    by_cases hmem : (q, l) ∈ prog_r
    · rw [runAll_eq_done ⟨rfl, hmem⟩]
      rw [pairCached_recon pr cfg q l c_r hcr (hpc (q, l) hmem)]
      exact ih (prog_f ++ [(q, l)]) prog_r (runPair pr cfg q l c_f).cache c_r
        (foldAll acc (pureCands pr cfg q l))
        (calls_f ++ [(runPair pr cfg q l c_f).calls]) (calls_r ++ [0])
        (runPair_coherent pr cfg q l c_f hcf).2 hcr hpc
    · rw [runAll_eq_fresh (fun hcontra => hmem hcontra.2)]
      rw [(runPair_coherent pr cfg q l c_r hcr).1]
      refine ih (prog_f ++ [(q, l)]) (prog_r ++ [(q, l)]) (runPair pr cfg q l c_f).cache
        (runPair pr cfg q l c_r).cache (foldAll acc (pureCands pr cfg q l))
        (calls_f ++ [(runPair pr cfg q l c_f).calls])
        (calls_r ++ [(runPair pr cfg q l c_r).calls])
        (runPair_coherent pr cfg q l c_f hcf).2
        (runPair_coherent pr cfg q l c_r hcr).2 ?_
      intro pq' hpq'
      rcases List.mem_append.mp hpq' with hpq' | hpq'
      · exact PairCached_mono (hpc pq' hpq') (runPair_mono pr cfg q l c_r)
      · have : pq' = (q, l) := by simpa using hpq'
        subst this
        exact runPair_pairCached pr cfg q l c_r hcr

theorem runAll_perPair_ext (pr : Provider) (cfg : Config) (resume : Bool) :
    ∀ (rest prog : List (String × String)) (c : Cache) (acc : DedupState)
      (calls : List Nat),
      ∃ tail, (runAll pr cfg resume rest prog c acc calls).perPair = calls ++ tail := by
  intro rest
  induction rest with
  | nil => intro prog c acc calls; exact ⟨[], by simp [runAll]⟩
  | cons pq0 rest ih =>
    obtain ⟨q, l⟩ := pq0
    intro prog c acc calls
    by_cases hdone : resume = true ∧ (q, l) ∈ prog
    · rw [runAll_eq_done hdone]
      obtain ⟨tail, ht⟩ := ih prog c _ (calls ++ [0])
      exact ⟨0 :: tail, by rw [ht]; simp⟩
    · rw [runAll_eq_fresh hdone]
      obtain ⟨tail, ht⟩ := ih _ _ _ (calls ++ [(runPair pr cfg q l c).calls])
      exact ⟨(runPair pr cfg q l c).calls :: tail, by rw [ht]; simp⟩

theorem runAll_done_zero (pr : Provider) (cfg : Config) :
    ∀ (rest prog : List (String × String)) (c : Cache) (acc : DedupState)
      (calls : List Nat) (j : Nat) (pq : String × String),
      nth rest j = some pq → pq ∈ prog →
      nth (runAll pr cfg true rest prog c acc calls).perPair (calls.length + j) =
        some 0 := by
  intro rest
  induction rest with
  | nil => intro prog c acc calls j pq hj _; simp [nth] at hj
  | cons pq0 rest ih =>
    obtain ⟨q, l⟩ := pq0
    intro prog c acc calls j pq hj hmem
    cases j with
    | zero =>
      have hpq : pq = (q, l) := by simpa [nth] using hj.symm
      subst hpq
      rw [runAll_eq_done ⟨rfl, hmem⟩]
      obtain ⟨tail, ht⟩ := runAll_perPair_ext pr cfg true rest prog c _ (calls ++ [0])
      rw [ht, List.append_assoc]
      show nth (calls ++ ([0] ++ tail)) (calls.length + 0) = some 0
      rw [nth_append_add]
      rfl
    | succ j' =>
      have hj' : nth rest j' = some pq := hj
      by_cases hdone : (true : Bool) = true ∧ (q, l) ∈ prog
      · rw [runAll_eq_done hdone]
        have := ih prog c (foldAll acc (reconPair cfg q l c)) (calls ++ [0]) j' pq hj' hmem
        have hlen : (calls ++ [0]).length = calls.length + 1 := by simp
        rw [hlen] at this
        have hidx : calls.length + 1 + j' = calls.length + (j' + 1) := by omega
        rwa [hidx] at this
      · rw [runAll_eq_fresh hdone]
        have hmem' : pq ∈ prog ++ [(q, l)] := List.mem_append_left _ hmem
        have := ih (prog ++ [(q, l)]) (runPair pr cfg q l c).cache
          (foldAll acc (runPair pr cfg q l c).cands)
          (calls ++ [(runPair pr cfg q l c).calls]) j' pq hj' hmem'
        have hlen : (calls ++ [(runPair pr cfg q l c).calls]).length = calls.length + 1 := by
          simp
        rw [hlen] at this
        have hidx : calls.length + 1 + j' = calls.length + (j' + 1) := by omega
        rwa [hidx] at this

/-- C3 (amended): a fresh run interrupted after its first N pairs, then
resumed over the full pair list with the saved progress and cache,
issues zero network calls for every pair recorded DONE, and the resumed
run's output equals the uninterrupted run's output. -/
theorem resume_skips_done (pr : Provider) (cfg : Config)
    (pairs : List (String × String)) (N : Nat) :
    (runAll pr cfg true pairs
        (runAll pr cfg false (pairs.take N) [] emptyCache dedupInit []).prog
        (runAll pr cfg false (pairs.take N) [] emptyCache dedupInit []).cache
        dedupInit []).acc.leads =
      (runAll pr cfg false pairs [] emptyCache dedupInit []).acc.leads ∧
    (∀ j pq, j < N → nth pairs j = some pq →
      nth (runAll pr cfg true pairs
        (runAll pr cfg false (pairs.take N) [] emptyCache dedupInit []).prog
        (runAll pr cfg false (pairs.take N) [] emptyCache dedupInit []).cache
        dedupInit []).perPair j = some 0) := by
  constructor
  · have hacc := runAll_resume_acc pr cfg pairs []
      (runAll pr cfg false (pairs.take N) [] emptyCache dedupInit []).prog
      emptyCache
      (runAll pr cfg false (pairs.take N) [] emptyCache dedupInit []).cache
      dedupInit [] []
      (Coherent_empty pr)
      (runAll_coherent pr cfg false (pairs.take N) [] emptyCache dedupInit []
        (Coherent_empty pr))
      (runAll_false_cached pr cfg (pairs.take N) [] emptyCache dedupInit []
        (Coherent_empty pr) (fun pq hpq => absurd hpq (by simp)))
    rw [hacc]
  · intro j pq hj hnth
    have hprog : (runAll pr cfg false (pairs.take N) [] emptyCache dedupInit []).prog =
        pairs.take N := by
      rw [runAll_false_prog]
      simp
    have hmem : pq ∈ (runAll pr cfg false (pairs.take N) [] emptyCache dedupInit []).prog := by
      rw [hprog]
      exact nth_mem_take pairs N j pq hj hnth
    have hz := runAll_done_zero pr cfg pairs
      (runAll pr cfg false (pairs.take N) [] emptyCache dedupInit []).prog
      (runAll pr cfg false (pairs.take N) [] emptyCache dedupInit []).cache
      dedupInit [] j pq hnth hmem
    simpa using hz

/-- Two-pair run used to exercise the resume logic: the pairs yield
distinct places sharing a normalized phone, so they dedup across pairs. -/
def rcProvider : Provider :=
  { page := fun q _ _ =>
      if q = "q1" then { placeIds := ["pa"], hasNext := false }
      else { placeIds := ["pb"], hasNext := false }
    detail := fun pid =>
      if pid = "pa" then { name := "A", phone := some "5551", website := none, types := ["x"] }
      else { name := "B", phone := some "5551", website := none, types := ["y"] }
    site := fun _ => { emails := [], attempts := 0 } }

/-- Configuration for the two-pair resume runs. -/
def rcConfig : Config :=
  { maxPages := 1, maxResults := 5, sleepMs := 0, qps := 1, crawlOn := false }

/-- The two query/location pairs of the resume runs. -/
def rcPairs : List (String × String) := [("q1", "l1"), ("q2", "l2")]

/-- Witness for C3's amended theorem on the concrete two-pair run
interrupted after pair 1. -/
theorem resume_skips_done_witness :
    (runAll rcProvider rcConfig true rcPairs
        (runAll rcProvider rcConfig false (rcPairs.take 1) [] emptyCache dedupInit []).prog
        (runAll rcProvider rcConfig false (rcPairs.take 1) [] emptyCache dedupInit []).cache
        dedupInit []).acc.leads =
      (runAll rcProvider rcConfig false rcPairs [] emptyCache dedupInit []).acc.leads ∧
    nth (runAll rcProvider rcConfig true rcPairs
        (runAll rcProvider rcConfig false (rcPairs.take 1) [] emptyCache dedupInit []).prog
        (runAll rcProvider rcConfig false (rcPairs.take 1) [] emptyCache dedupInit []).cache
        dedupInit []).perPair 0 = some 0 :=
  ⟨(resume_skips_done rcProvider rcConfig rcPairs 1).1,
   (resume_skips_done rcProvider rcConfig rcPairs 1).2 0 ("q1", "l1")
     (by decide) (by decide)⟩

/-- C3, counterexample to the claim as stated: the combined output of
the interrupted run plus the resumed run is not equal to the output of
the uninterrupted run, because the resumed run reconstructs the DONE
pair from cache and re-emits the full (cross-pair deduplicated) output,
while the interrupted run's partial lead (pair 1's lead before pair 2
merged into it) is not an element of the uninterrupted output. -/
theorem resume_combined_counterexample :
    (runAll rcProvider rcConfig false (rcPairs.take 1) [] emptyCache dedupInit []).acc.leads ++
      (runAll rcProvider rcConfig true rcPairs
        (runAll rcProvider rcConfig false (rcPairs.take 1) [] emptyCache dedupInit []).prog
        (runAll rcProvider rcConfig false (rcPairs.take 1) [] emptyCache dedupInit []).cache
        dedupInit []).acc.leads ≠
      (runAll rcProvider rcConfig false rcPairs [] emptyCache dedupInit []).acc.leads := by
  decide
